import Mathlib

/-!
Verification development for the arc-config search-section diff engine.

The Rust source (src/generate.rs, src/lib.rs) is shallowly embedded here:

* 40-bit path hashes are modelled as plain naturals; the concrete hash
  function over strings and the path-join combination are abstracted into a
  HashScheme record, since they live in the external hash40 crate.
* The external smash_arc search section (trait SearchLookup) is modelled as
  finite tables: a flat path list, the parallel next-sibling index table, a
  hash-to-index table and a hash-to-folder-entry table, mirroring the
  interface the code consumes (get_path_list, get_path_list_indices,
  get_path_list_index_from_hash, get_folder_path_entry_from_hash, and the
  derived get_path_list_entry_from_hash).
* Rust functions that can loop on a corrupted index (sibling chains, the
  recursive folder diff, label reconstruction) take an explicit fuel
  argument; a result of none models a computation that does not return
  normally (divergence, or an out-of-bounds slice indexing panic).
  Returning some r means the Rust function returns r. The Rust try
  operator on results is the obind combinator below.
* Rust HashMap values are modelled as association lists with overwriting
  insert; no claim depends on iteration order.
* Filesystem paths (camino Utf8Path) are modelled as lists of components;
  the real directory tree consulted by compare_folders_path is a record of
  predicates (exists, is_file, read_dir).
-/

/-- The INVALID sentinel for sibling and first-child links (0xFF_FFFF). -/
def INVALID : Nat := 0xFFFFFF

/-- Abstraction of the hash40 hashing scheme: hashing a string label and
joining a path hash with a component hash (Hash40::new / Hash40::join_path
of the external hash40 crate). -/
structure HashScheme where
  hashStr : String → Nat
  joinPath : Nat → Nat → Nat

/-- A hash plus packed index, as stored in smash_arc path list entries
(HashToIndex: hash40() and index()). -/
structure PathComponent where
  hash : Nat
  index : Nat
deriving DecidableEq, Repr

/-- One row of the search section path list (smash_arc PathListEntry):
full path, parent, file name and extension hashes plus the directory flag.
The next-sibling link is the index part of the path component. -/
structure PathListEntry where
  path : PathComponent
  parent : PathComponent
  file_name : PathComponent
  ext : PathComponent
  is_directory : Bool
deriving DecidableEq, Repr

/-- A folder path entry; only the first-child link is consumed by the code
(get_first_child_index). -/
structure FolderPathEntry where
  first_child_index : Nat
deriving DecidableEq, Repr

/-- The search section as consumed through the SearchLookup trait:
the flat path list, the parallel path-index table, and the two hash lookup
tables, all finite. -/
structure SearchLookup where
  path_list : List PathListEntry
  path_list_indices : List Nat
  hash_to_index : List (Nat × Nat)
  folder_by_hash : List (Nat × FolderPathEntry)
deriving DecidableEq, Repr

/-- First-match association list lookup, modelling the hash maps of the
external index. -/
def lookupA {α : Type} : List (Nat × α) → Nat → Option α
  | [], _ => none
  | p :: rest, k => if p.1 = k then some p.2 else lookupA rest k

/-- get_path_list_index_from_hash: Err is modelled as none. -/
def indexFromHash (s : SearchLookup) (h : Nat) : Option Nat :=
  lookupA s.hash_to_index h

/-- get_folder_path_entry_from_hash: Err is modelled as none. -/
def folderFromHash (s : SearchLookup) (h : Nat) : Option FolderPathEntry :=
  lookupA s.folder_by_hash h

/-- get_path_list_entry_from_hash, which resolves the hash to an index and
then indexes the path list. Outer none models the out-of-bounds indexing
panic; some none models the lookup error; some (some e) is success. -/
def entryFromHash (s : SearchLookup) (h : Nat) : Option (Option PathListEntry) :=
  match indexFromHash s h with
  | none => some none
  | some i =>
    match s.path_list.get? i with
    | none => none
    | some e => some (some e)

/-- The GenerateError enum of src/generate.rs. -/
inductive GenError : Type where
  | invalidFolder
  | invalidPathIndex
  | lookupFailed
  | conversionError
  | missingSourceFolder
  | invalidRoot
  | searchErr
  | ioErr
deriving DecidableEq, Repr

/-- The Rust try operator over our fallible-diverging computations: none
and errors propagate, ok feeds the continuation. -/
def obind {α β : Type} (x : Option (Except GenError α))
    (f : α → Option (Except GenError β)) : Option (Except GenError β) :=
  match x with
  | none => none
  | some (.error e) => some (.error e)
  | some (.ok a) => f a

/-- The SearchEntry enum of src/generate.rs: a file leaf carrying its path
list index, or a folder carrying its path list index and child entries. -/
inductive SearchEntry : Type where
  | file (index : Nat)
  | folder (path_index : Nat) (children : List SearchEntry)

/-- SearchEntryVecExt::flatten: discards folder nesting, keeping file
leaves in discovery order. -/
def flattenList : List SearchEntry → List SearchEntry
  | [] => []
  | .file i :: rest => .file i :: flattenList rest
  | .folder _ children :: rest => flattenList children ++ flattenList rest

/-- The sibling-chain while loop of walk_search_section: follow next-sibling
links from the current position, collecting file and folder entries; a
sibling position resolving to INVALID in the path-index table is the
InvalidPathIndex error. The walk of a directory child is supplied as
recWalk. Fuel bounds the chain length; none models divergence or an
indexing panic. -/
def walkChain (s : SearchLookup)
    (recWalk : Nat → Option Nat → Option (Except GenError (List SearchEntry))) :
    Nat → Nat → Option Nat → Option (Except GenError (List SearchEntry))
  | 0, current, _ => if current = INVALID then some (.ok []) else none
  | fuel + 1, current, nextDepth =>
    if current = INVALID then some (.ok []) else
      (s.path_list_indices.get? current).bind fun ci =>
        if ci = INVALID then some (.error .invalidPathIndex) else
          (s.path_list.get? ci).bind fun child =>
            if child.is_directory then
              obind (recWalk child.path.hash nextDepth) fun sub =>
              obind (walkChain s recWalk fuel child.path.index nextDepth) fun rest =>
              some (.ok (.folder ci sub :: rest))
            else
              obind (walkChain s recWalk fuel child.path.index nextDepth) fun rest =>
              some (.ok (.file ci :: rest))

/-- Resolution of the start location of walk_search_section: the literal
root hash goes straight to its folder entry; any other hash is resolved
through the path list, must be a directory (InvalidFolder otherwise) and
then yields its folder entry. Failed lookups carry the Lookup error. -/
def resolveWalkFolder (s : SearchLookup) (C : HashScheme) (folder : Nat) :
    Option (Except GenError FolderPathEntry) :=
  if folder = C.hashStr "/" then
    match folderFromHash s folder with
    | none => some (.error .lookupFailed)
    | some fe => some (.ok fe)
  else
    match entryFromHash s folder with
    | none => none
    | some none => some (.error .lookupFailed)
    | some (some p) =>
      if p.is_directory then
        match folderFromHash s p.path.hash with
        | none => some (.error .lookupFailed)
        | some fe => some (.ok fe)
      else some (.error .invalidFolder)

/-- walk_search_section of src/generate.rs. The depth-zero check comes
first, before any lookup, exactly as in the source; then the start
location is resolved and the sibling chain of its first child is walked
with the decremented depth. -/
def walk (s : SearchLookup) (C : HashScheme) (fuel : Nat) (folder : Nat)
    (depth : Option Nat) : Option (Except GenError (List SearchEntry)) :=
  if depth = some 0 then some (.ok []) else
    match fuel with
    | 0 => none
    | f + 1 =>
      obind (resolveWalkFolder s C folder) fun fe =>
        walkChain s (fun h d => walk s C f h d) f fe.first_child_index
          (depth.map (· - 1))

/-- The sibling-chain scan of get_direct_child: find the first chain member
whose file-name hash matches the target. Returns ok none at the INVALID
terminator, and the InvalidPathIndex error on a broken link. -/
def scanChain (s : SearchLookup) :
    Nat → Nat → Nat → Option (Except GenError (Option Nat))
  | 0, current, _ => if current = INVALID then some (.ok none) else none
  | fuel + 1, current, target =>
    if current = INVALID then some (.ok none) else
      (s.path_list_indices.get? current).bind fun ci =>
        if ci = INVALID then some (.error .invalidPathIndex) else
          (s.path_list.get? ci).bind fun path =>
            if path.file_name.hash = target then some (.ok (some ci))
            else scanChain s fuel path.path.index target

/-- Resolution of the parent row of get_direct_child: index into the path
list (panic when out of bounds), require a directory (InvalidFolder
otherwise) and fetch its folder entry. -/
def resolveChildFolder (s : SearchLookup) (parent : Nat) :
    Option (Except GenError FolderPathEntry) :=
  (s.path_list.get? parent).bind fun folder =>
    if folder.is_directory then
      match folderFromHash s folder.path.hash with
      | none => some (.error .lookupFailed)
      | some fe => some (.ok fe)
    else some (.error .invalidFolder)

/-- get_direct_child of src/generate.rs: resolve the parent index to a
directory and scan its sibling chain for the child name hash. -/
def getDirectChild (s : SearchLookup) (fuel : Nat) (parent : Nat)
    (child : Nat) : Option (Except GenError (Option Nat)) :=
  obind (resolveChildFolder s parent) fun fe =>
    scanChain s fuel fe.first_child_index child

/-- Modelled from the spec: search::Folder of the search module (not under
src/), the synthesized destination-folder record of section 3 of the spec:
a full path hash, an optional name hash (absent only at the comparison
root) and an optional owned parent, forming the ancestor chain. The field
shapes are pinned down by their uses in src/generate.rs. -/
inductive Folder : Type where
  | mk (full_path : Nat) (name : Option Nat) (parent : Option Folder)

def Folder.full_path : Folder → Nat
  | .mk fp _ _ => fp

def Folder.name : Folder → Option Nat
  | .mk _ n _ => n

def Folder.parent : Folder → Option Folder
  | .mk _ _ p => p

/-- Modelled from the spec: search::File of the search module (not under
src/), the missing-entry record of section 3 of the spec: full path, file
name and extension hashes plus the owned destination parent chain. The
field shapes are pinned down by their uses in src/generate.rs. -/
structure File where
  full_path : Nat
  file_name : Nat
  parent : Folder
  extension : Nat

/-- The output mapping HashMap of hash40 to search::File, as an association
list. -/
abbrev MList := List (Nat × File)

/-- HashMap::insert with overwrite semantics. -/
def insertKV {α : Type} (m : List (Nat × α)) (k : Nat) (v : α) :
    List (Nat × α) :=
  (k, v) :: m.filter (fun p => !(p.1 == k))

/-- HashMap::extend: insert every pair of the second map. -/
def extendKV {α : Type} (m : List (Nat × α)) (l : List (Nat × α)) :
    List (Nat × α) :=
  l.foldl (fun acc p => insertKV acc p.1 p.2) m

/-- Membership of a key in the mapping. -/
def keyMem {α : Type} (k : Nat) (m : List (Nat × α)) : Bool :=
  m.any (fun p => p.1 == k)

/-- The per-entry loop of compare_folders_impl: files present at the
destination (looked up through get_direct_child when the destination
resolves) are skipped, absent files are inserted keyed by their source
full-path hash, and folder children recurse through recCompare with the
extended destination-folder chain, merging the result. -/
def compareEntries (s : SearchLookup) (C : HashScheme)
    (recCompare : Nat → Nat → Folder → Option (Except GenError MList))
    (gdcFuel : Nat) (dstIndex : Option Nat) (dst : Nat) (parent : Folder) :
    List SearchEntry → MList → Option (Except GenError MList)
  | [], acc => some (.ok acc)
  | .file i :: rest, acc =>
    (s.path_list.get? i).bind fun pe =>
      match dstIndex with
      | some di =>
        obind (getDirectChild s gdcFuel di pe.file_name.hash) fun found =>
          match found with
          | some _ =>
            compareEntries s C recCompare gdcFuel dstIndex dst parent rest acc
          | none =>
            compareEntries s C recCompare gdcFuel dstIndex dst parent rest
              (insertKV acc pe.path.hash
                (File.mk (C.joinPath parent.full_path pe.file_name.hash)
                  pe.file_name.hash parent pe.ext.hash))
      | none =>
        compareEntries s C recCompare gdcFuel dstIndex dst parent rest
          (insertKV acc pe.path.hash
            (File.mk (C.joinPath parent.full_path pe.file_name.hash)
              pe.file_name.hash parent pe.ext.hash))
  | .folder pi _ :: rest, acc =>
    (s.path_list.get? pi).bind fun pe =>
      obind (recCompare pe.path.hash (C.joinPath dst pe.file_name.hash)
          (Folder.mk (C.joinPath dst pe.file_name.hash)
            (some pe.file_name.hash) (some parent))) fun sub =>
        compareEntries s C recCompare gdcFuel dstIndex dst parent rest
          (extendKV acc sub)

/-- compare_folders_impl of src/generate.rs: reject an unresolved source
(MissingSourceFolder), resolve the destination index if possible, shallow
walk the source at depth one, and process the children. -/
def compareImpl (s : SearchLookup) (C : HashScheme) :
    Nat → Nat → Nat → Folder → Option (Except GenError MList)
  | 0, _, _, _ => none
  | f + 1, src, dst, parent =>
    match entryFromHash s src with
    | none => none
    | some none => some (.error .missingSourceFolder)
    | some (some _) =>
      obind (walk s C f src (some 1)) fun entries =>
        compareEntries s C (fun a b p => compareImpl s C f a b p) f
          (indexFromHash s dst) dst parent entries []

/-- compare_folders of src/generate.rs: the index-vs-index diff entry
point, seeding the destination-folder chain with a root folder whose full
path is the destination hash and which has no name and no parent. -/
def compare_folders (s : SearchLookup) (C : HashScheme) (fuel : Nat)
    (src dst : Nat) : Option (Except GenError MList) :=
  compareImpl s C fuel src dst (Folder.mk dst none none)

/-- Render a component list as a slash separated path string (the as_str
view of a camino path). -/
def renderPath : List String → String
  | [] => ""
  | [c] => c
  | c :: rest => c ++ "/" ++ renderPath rest

/-- Utf8Path::strip_prefix on component lists: the remainder when the root
is a componentwise prefix, otherwise none (the StripPrefixError case). -/
def dropRootPath (root p : List String) : Option (List String) :=
  if root.isPrefixOf p then some (p.drop root.length) else none

/-- Utf8Path::file_name on component lists: the last component. -/
def lastName (p : List String) : Option String :=
  p.getLast?

/-- Utf8Path::parent on component lists. -/
def parentPath (p : List String) : Option (List String) :=
  match p with
  | [] => none
  | _ => some p.dropLast

/-- The read-only real-filesystem side consulted by compare_folders_path:
existence and file/directory classification of a path, and directory
listing (child names); read_dir returning none models an IO error. -/
structure FS where
  pathExists : List String → Bool
  isFile : List String → Bool
  readDir : List String → Option (List String)

/-- Modelled from the spec: search::Folder::from_path of the search module
(not under src/). Per sections 3 and 4.4 of the spec it builds the
synthesized destination folder for a relative path, with the ancestor
chain built recursively from the parent path; the name is absent only at
the comparison root. Hashes are taken of the rendered path strings. The
SearchError failure case of the real function is not modelled; no claim
depends on it. -/
def folderFromPath (C : HashScheme) : List String → Folder
  | [] => Folder.mk (C.hashStr "") none none
  | c :: cs =>
    Folder.mk (C.hashStr (renderPath (c :: cs)))
      (some (C.hashStr ((c :: cs).getLast (List.cons_ne_nil c cs))))
      (some (folderFromPath C (c :: cs).dropLast))
  termination_by p => p.length
  decreasing_by simp [List.length_dropLast]

/-- The destination listing of compare_folders_path: a map from each real
child's name hash to its full path, later entries overwriting earlier ones
exactly as repeated HashMap::insert does. -/
def dstEntriesOf (C : HashScheme) (dst : List String) (names : List String) :
    List (Nat × List String) :=
  names.foldl (fun m n => insertKV m (C.hashStr n) (dst ++ [n])) []

/-- The per-entry loop of compare_folders_path when the destination exists:
source files present among the real children (by name hash) are skipped,
absent ones are recorded keyed by their source full-path hash; a source
directory matching a real file fails with InvalidFolder, one matching a
real directory recurses in filesystem mode through recPath, and one with
no real match recurses in index mode with a synthesized missing folder.
Label-map registration of listed names, a side effect that no result
depends on, is not modelled. -/
def comparePathEntries (s : SearchLookup) (C : HashScheme) (fs : FS)
    (recPath : Nat → List String → Option (Except GenError MList))
    (cmpFuel : Nat) (rel : List String) (dst : List String)
    (dstE : List (Nat × List String)) :
    List SearchEntry → MList → Option (Except GenError MList)
  | [], acc => some (.ok acc)
  | .file i :: rest, acc =>
    (s.path_list.get? i).bind fun pe =>
      if (lookupA dstE pe.file_name.hash).isSome then
        comparePathEntries s C fs recPath cmpFuel rel dst dstE rest acc
      else
        comparePathEntries s C fs recPath cmpFuel rel dst dstE rest
          (insertKV acc pe.path.hash
            (File.mk (C.joinPath (C.hashStr (renderPath dst)) pe.file_name.hash)
              pe.file_name.hash (folderFromPath C rel) pe.ext.hash))
  | .folder pi _ :: rest, acc =>
    (s.path_list.get? pi).bind fun pe =>
      match lookupA dstE pe.file_name.hash with
      | some childPath =>
        if fs.isFile childPath then some (.error .invalidFolder)
        else
          obind (recPath pe.path.hash childPath) fun sub =>
            comparePathEntries s C fs recPath cmpFuel rel dst dstE rest
              (extendKV acc sub)
      | none =>
        obind (compareImpl s C cmpFuel pe.path.hash
            (C.joinPath (C.hashStr (renderPath rel)) pe.file_name.hash)
            (Folder.mk (C.joinPath (C.hashStr (renderPath rel)) pe.file_name.hash)
              (some pe.file_name.hash) (some (folderFromPath C rel)))) fun sub =>
          comparePathEntries s C fs recPath cmpFuel rel dst dstE rest
            (extendKV acc sub)

/-- compare_folders_path of src/generate.rs: the index-vs-filesystem diff.
The source must resolve (MissingSourceFolder otherwise); the destination
must be expressible relative to the root (InvalidRoot otherwise); a
destination absent from disk delegates to the index-vs-index algorithm
with a synthesized missing folder; otherwise the source children are
walked at depth one and matched against the real directory listing.
Registration of path components in the global label map, a side effect
that no result depends on, is not modelled. -/
def comparePath (s : SearchLookup) (C : HashScheme) (fs : FS) :
    Nat → Nat → List String → List String → Option (Except GenError MList)
  | 0, _, _, _ => none
  | f + 1, src, dst, root =>
    match entryFromHash s src with
    | none => none
    | some none => some (.error .missingSourceFolder)
    | some (some _) =>
      match dropRootPath root dst with
      | none => some (.error .invalidRoot)
      | some rel =>
        if fs.pathExists dst = false then
          match lastName dst, parentPath dst with
          | some fname, some par =>
            match dropRootPath root par with
            | none => some (.error .invalidRoot)
            | some relPar =>
              compareImpl s C f src (C.hashStr (renderPath rel))
                (Folder.mk (C.hashStr (renderPath rel))
                  (some (C.hashStr fname)) (some (folderFromPath C relPar)))
          | _, _ => none
        else
          obind (walk s C f src (some 1)) fun entries =>
            match fs.readDir dst with
            | none => some (.error .ioErr)
            | some names =>
              comparePathEntries s C fs
                (fun a b => comparePath s C fs f a b root) f rel dst
                (dstEntriesOf C dst names) entries []

/-- The label map of the external hash40 crate, as consumed here: a finite
association of hashes to their string labels. -/
abbrev LabelMap := List (Nat × String)

/-- LabelMap::label_of. -/
def labelOf (m : LabelMap) (h : Nat) : Option String :=
  lookupA m h

/-- LabelMap::add_labels for a single label: the label is keyed by the hash
of the whole string and inserted, overwriting any previous association.
The call sites in src/generate.rs split paths into components themselves
before registering them (compare_folders_path and the existing-label branch
of fill_label_map_from_search), which is what pins this non-splitting
modelling of the external crate down. -/
def addLabel (C : HashScheme) (m : LabelMap) (l : String) : LabelMap :=
  insertKV m (C.hashStr l) l

/-- Split a string on slashes (the component view of Utf8PathBuf used when
decomposing an existing label); the empty string has no components. -/
def splitSlash : List Char → List Char → List String
  | [], acc => [String.mk acc.reverse]
  | c :: rest, acc =>
    if c = '/' then String.mk acc.reverse :: splitSlash rest []
    else splitSlash rest (c :: acc)

/-- Components of a label string. -/
def splitComponents (s : String) : List String :=
  if s = "" then [] else splitSlash s.data []

/-- build_new_path of fill_label_map_from_search: return an existing label
for the entry's full path (the degenerate case), otherwise require a label
for the file name and obtain the parent label directly or by recursing on
the parent's own row, joining parent and name with a slash. Outer none
models divergence or an indexing panic; some none is the ordinary
cannot-construct outcome. -/
def buildNewPath (s : SearchLookup) : Nat → Nat → LabelMap → Option (Option String)
  | 0, _, _ => none
  | f + 1, fileIndex, m =>
    match s.path_list.get? fileIndex with
    | none => none
    | some path =>
      match labelOf m path.path.hash with
      | some label => some (some label)
      | none =>
        match labelOf m path.file_name.hash with
        | none => some none
        | some name =>
          match
            (match labelOf m path.parent.hash with
             | some p => some (some p)
             | none =>
               match indexFromHash s path.parent.hash with
               | none => some none
               | some i => buildNewPath s f i m) with
          | none => none
          | some none => some none
          | some (some parent) => some (some (parent ++ "/" ++ name))

/-- Outcome of fill_label_map_from_search: normal completion, a propagated
GenerateError, fuel exhaustion (modelling divergence), an out-of-bounds
indexing panic, or the unreachable branch being executed. -/
inductive FillRes : Type where
  | done (m : LabelMap)
  | err (e : GenError)
  | fuelOut
  | outOfBounds
  | hitUnreachable
deriving Repr

/-- The per-file loop of fill_label_map_from_search: a folder entry in the
flattened walk would execute the unreachable branch; a file whose full
path already has a label gets that label decomposed and each component
registered; otherwise a newly built label, if any, is registered. -/
def fillFold (s : SearchLookup) (C : HashScheme) (fuel : Nat) :
    List SearchEntry → LabelMap → FillRes
  | [], m => .done m
  | .folder _ _ :: _, _ => .hitUnreachable
  | .file i :: rest, m =>
    match s.path_list.get? i with
    | none => .outOfBounds
    | some path =>
      match labelOf m path.path.hash with
      | some label =>
        fillFold s C fuel rest
          ((splitComponents label).foldl (fun acc c => addLabel C acc c) m)
      | none =>
        match buildNewPath s fuel i m with
        | none => .fuelOut
        | some none => fillFold s C fuel rest m
        | some (some label) => fillFold s C fuel rest (addLabel C m label)

/-- fill_label_map_from_search of src/generate.rs: flatten an unbounded
walk from the root and process every file entry. -/
def fill (s : SearchLookup) (C : HashScheme) (fuel : Nat) (m : LabelMap) :
    FillRes :=
  match walk s C fuel (C.hashStr "/") none with
  | none => .fuelOut
  | some (.error e) => .err e
  | some (.ok entries) => fillFold s C fuel (flattenList entries) m

/-- Does the component carry the reserved literal-hash hex marker. -/
def hasHexMark (s : String) : Bool :=
  match s.data with
  | '0' :: 'x' :: _ => true
  | _ => false

/-- Value of one hexadecimal digit. -/
def hexDigitVal (c : Char) : Option Nat :=
  let n := c.toNat
  if 48 ≤ n ∧ n ≤ 57 then some (n - 48)
  else if 97 ≤ n ∧ n ≤ 102 then some (n - 87)
  else if 65 ≤ n ∧ n ≤ 70 then some (n - 55)
  else none

/-- Parse a nonempty hexadecimal digit string (u64::from_str_radix with
radix 16; the empty string is a parse error). -/
def parseHexDigits (l : List Char) : Option Nat :=
  match l with
  | [] => none
  | _ =>
    l.foldl (fun acc c =>
      match acc, hexDigitVal c with
      | some a, some d => some (16 * a + d)
      | _, _ => none) (some 0)

/-- Hash40::from_label of the external hash40 crate as used here: a
component with the 0x marker is parsed as a literal hex hash (failing on
non-hex characters, which the source unwraps into a panic), any other
component is hashed. -/
def fromLabel (C : HashScheme) (s : String) : Option Nat :=
  if hasHexMark s then parseHexDigits (s.data.drop 2)
  else some (C.hashStr s)

/-- The portion of a component before the first extension separator
(str::split_once with a dot). -/
def takeBeforeDot (s : String) : String :=
  String.mk (s.data.takeWhile (fun c => c != '.'))

/-- The component fold of path_to_hash: starting from the hash of the
empty string (which is zero), each component either seeds the chain via
from_label when the accumulator is still zero, or is joined onto the
chain, with the literal-hex-plus-extension special case hashing only the
portion before the dot. none models the panicking unwrap of a failed
from_label. -/
def pathToHashAux (C : HashScheme) : Nat → List String → Option Nat
  | hashed, [] => some hashed
  | hashed, comp :: rest =>
    match
      (if hashed = 0 then fromLabel C comp
       else if hasHexMark comp ∧ comp.data.any (fun c => c == '.') then
         (fromLabel C (takeBeforeDot comp)).map (C.joinPath hashed)
       else (fromLabel C comp).map (C.joinPath hashed)) with
    | none => none
    | some h => pathToHashAux C h rest

/-- path_to_hash of src/lib.rs, over the component list of the path. -/
def path_to_hash (C : HashScheme) (comps : List String) : Option Nat :=
  pathToHashAux C 0 comps

/-- The effective text a component contributes according to the spec: a
literal-hex component containing an extension separator contributes only
the portion before the separator. -/
def effectiveComp (c : String) : String :=
  if hasHexMark c ∧ c.data.any (fun ch => ch == '.') then takeBeforeDot c
  else c

/-- Chain a list of components onto an existing accumulator, applying the
effective-component rule to each. -/
def chainFold (C : HashScheme) : Nat → List String → Option Nat
  | acc, [] => some acc
  | acc, c :: rest =>
    match fromLabel C (effectiveComp c) with
    | none => none
    | some h => chainFold C (C.joinPath acc h) rest

/-- Stated from the claim wording for comparison with path_to_hash: the
chained hash of the components in order, with every component (the first
included) subject to the effective-component rule. -/
def chainedHashClaim (C : HashScheme) : List String → Option Nat
  | [] => some 0
  | c :: rest =>
    match fromLabel C (effectiveComp c) with
    | none => none
    | some h => chainFold C h rest

/-- The amended chained-hash reading: the first component is passed to
from_label whole (no extension special case), later components follow the
effective-component rule. -/
def chainedHashAmended (C : HashScheme) : List String → Option Nat
  | [] => some 0
  | c :: rest =>
    match fromLabel C c with
    | none => none
    | some h => chainFold C h rest

/-! ## Generic facts about the association-list maps -/

theorem lookupA_mem {α : Type} {l : List (Nat × α)} {k : Nat} {v : α}
    (h : lookupA l k = some v) : (k, v) ∈ l := by
  induction l with
  | nil => simp [lookupA] at h
  | cons p rest ih =>
    obtain ⟨a, b⟩ := p
    simp only [lookupA] at h
    by_cases hk : a = k
    · subst hk
      simp at h
      subst h
      exact List.mem_cons_self _ _
    · simp [hk] at h
      exact List.mem_cons_of_mem _ (ih h)

theorem mem_insertKV {α : Type} {m : List (Nat × α)} {k : Nat} {v : α}
    {p : Nat × α} (h : p ∈ insertKV m k v) : p = (k, v) ∨ p ∈ m := by
  unfold insertKV at h
  rcases List.mem_cons.mp h with h | h
  · exact Or.inl h
  · exact Or.inr (List.mem_of_mem_filter h)

theorem keyMem_insertKV_self {α : Type} (m : List (Nat × α)) (k : Nat)
    (v : α) : keyMem k (insertKV m k v) = true := by
  simp [keyMem, insertKV]

theorem keyMem_insertKV_mono {α : Type} {m : List (Nat × α)} {k' : Nat}
    (k : Nat) (v : α) (h : keyMem k' m = true) :
    keyMem k' (insertKV m k v) = true := by
  simp only [keyMem, List.any_eq_true] at h ⊢
  rcases h with ⟨p, hp, hk⟩
  by_cases he : p.1 = k
  · exact ⟨(k, v), List.mem_cons_self _ _, by simp_all⟩
  · refine ⟨p, List.mem_cons_of_mem _ ?_, hk⟩
    simp [List.mem_filter, hp, he]

theorem mem_extendKV {α : Type} {l : List (Nat × α)} :
    ∀ {m : List (Nat × α)} {p : Nat × α}, p ∈ extendKV m l → p ∈ m ∨ p ∈ l := by
  induction l with
  | nil => intro m p h; exact Or.inl h
  | cons q rest ih =>
    intro m p h
    unfold extendKV at h
    simp only [List.foldl_cons] at h
    rcases ih h with h' | h'
    · rcases mem_insertKV h' with h'' | h''
      · right; rw [h'']; exact List.mem_cons_self _ _
      · exact Or.inl h''
    · right; exact List.mem_cons_of_mem _ h'

theorem keyMem_extendKV_left {α : Type} {l : List (Nat × α)} :
    ∀ {m : List (Nat × α)} {k : Nat}, keyMem k m = true →
      keyMem k (extendKV m l) = true := by
  induction l with
  | nil => intro m k h; exact h
  | cons q rest ih =>
    intro m k h
    unfold extendKV
    simp only [List.foldl_cons]
    exact ih (keyMem_insertKV_mono _ _ h)

theorem keyMem_extendKV_right {α : Type} {l : List (Nat × α)} :
    ∀ {m : List (Nat × α)} {k : Nat}, keyMem k l = true →
      keyMem k (extendKV m l) = true := by
  induction l with
  | nil => intro m k h; simp [keyMem] at h
  | cons q rest ih =>
    intro m k h
    unfold extendKV
    simp only [List.foldl_cons]
    simp only [keyMem, List.any_cons, Bool.or_eq_true] at h
    rcases h with h | h
    · apply keyMem_extendKV_left
      have hq : q.1 = k := by simpa using h
      rw [← hq]
      exact keyMem_insertKV_self _ _ _
    · exact ih h

/-! ## Inversion of the try-operator combinators -/

theorem obind_inv {α β : Type} {x : Option (Except GenError α)}
    {f : α → Option (Except GenError β)} {r : Except GenError β}
    (h : obind x f = some r) :
    (∃ a, x = some (.ok a) ∧ f a = some r) ∨
      (∃ e, x = some (.error e) ∧ r = .error e) := by
  unfold obind at h
  rcases x with _ | x
  · simp at h
  · rcases x with e | a
    · right
      refine ⟨e, rfl, ?_⟩
      have := h
      simp at this
      exact this.symm
    · exact Or.inl ⟨a, rfl, h⟩

theorem obind_ok_inv {α β : Type} {x : Option (Except GenError α)}
    {f : α → Option (Except GenError β)} {b : β}
    (h : obind x f = some (.ok b)) :
    ∃ a, x = some (.ok a) ∧ f a = some (.ok b) := by
  rcases obind_inv h with h' | ⟨e, _, he⟩
  · exact h'
  · exact absurd he (by simp)

theorem bind_some_inv {α β : Type} {x : Option α} {f : α → Option β} {b : β}
    (h : x.bind f = some b) : ∃ a, x = some a ∧ f a = some b := by
  rcases x with _ | a
  · simp at h
  · exact ⟨a, rfl, h⟩

/-! ## Basic walk facts -/

/-- A depth-zero walk returns an empty ok result at once, for any fuel,
any start location and any index. -/
theorem walk_depth_zero (s : SearchLookup) (C : HashScheme) (fuel h : Nat) :
    walk s C fuel h (some 0) = some (.ok []) := by
  unfold walk
  simp

/-! ## Well-formed indices -/

/-- Position c in a sibling chain of the children of the folder with hash h
carries a valid link: it resolves through the path-index table to a
non-INVALID row whose parent is h. -/
def ChainSlot (s : SearchLookup) (h c : Nat) : Prop :=
  ∃ ci child, s.path_list_indices.get? c = some ci ∧ ci ≠ INVALID ∧
    s.path_list.get? ci = some child ∧ child.parent.hash = h

/-- The chain positions reachable while enumerating the children of the
folder with hash h: the folder's first-child link, then every successor
next-sibling link. -/
inductive ChainReach (s : SearchLookup) (h : Nat) : Nat → Prop where
  | head : ∀ fe, folderFromHash s h = some fe →
      ChainReach s h fe.first_child_index
  | step : ∀ c ci child, ChainReach s h c →
      s.path_list_indices.get? c = some ci →
      s.path_list.get? ci = some child →
      ChainReach s h child.path.index

/-- Well-formedness of an index, as a real loaded search section provides
it: hash lookups land on rows bearing that hash, every row's hash resolves
back to its own position, directories have folder entries, every row's
full-path hash is its parent's hash joined with its name hash, first-child
and next-sibling links are INVALID or valid chain slots of the right
parent, and the sibling table is shorter than the INVALID sentinel. -/
structure WF (s : SearchLookup) (C : HashScheme) : Prop where
  resolve : ∀ p ∈ s.hash_to_index,
    ∃ e, s.path_list.get? p.2 = some e ∧ e.path.hash = p.1
  selfIndex : ∀ i ∈ List.range s.path_list.length,
    ∃ e, s.path_list.get? i = some e ∧ indexFromHash s e.path.hash = some i
  folders : ∀ e ∈ s.path_list, e.is_directory = true →
    (folderFromHash s e.path.hash).isSome = true
  joins : ∀ e ∈ s.path_list,
    e.path.hash = C.joinPath e.parent.hash e.file_name.hash
  heads : ∀ p ∈ s.folder_by_hash,
    p.2.first_child_index = INVALID ∨ ChainSlot s p.1 p.2.first_child_index
  nexts : ∀ e ∈ s.path_list,
    e.path.index = INVALID ∨ ChainSlot s e.parent.hash e.path.index
  small : s.path_list_indices.length ≤ INVALID

theorem index_pos_ne_invalid {s : SearchLookup} {C : HashScheme}
    (wf : WF s C) {c ci : Nat} (h : s.path_list_indices.get? c = some ci) :
    c ≠ INVALID := by
  obtain ⟨hlt, _⟩ := List.get?_eq_some.mp h
  intro he
  rw [he] at hlt
  exact absurd hlt (Nat.not_lt.mpr wf.small)

theorem wf_slot {s : SearchLookup} {C : HashScheme} (wf : WF s C) {h c : Nat}
    (hr : ChainReach s h c) (hc : c ≠ INVALID) : ChainSlot s h c := by
  induction hr with
  | head fe hfe =>
    rcases wf.heads _ (lookupA_mem hfe) with h' | h'
    · exact absurd h' hc
    · exact h'
  | step c ci child hreach hidx hget ih =>
    have hcne : c ≠ INVALID := index_pos_ne_invalid wf hidx
    obtain ⟨ci', child', hidx', hci'ne, hget', hpar'⟩ := ih hcne
    rw [hidx] at hidx'
    injection hidx' with hcieq
    subst hcieq
    rw [hget] at hget'
    injection hget' with hcheq
    subst hcheq
    rcases wf.nexts child (List.get?_mem hget) with h' | h'
    · exact absurd h' hc
    · rw [hpar'] at h'
      exact h'

/-- Resolution facts packaged from a successful entry lookup under a
well-formed index. -/
theorem entry_resolution {s : SearchLookup} {C : HashScheme} (wf : WF s C)
    {X : Nat} {e : PathListEntry} (hre : entryFromHash s X = some (some e)) :
    ∃ i, indexFromHash s X = some i ∧ s.path_list.get? i = some e ∧
      e.path.hash = X ∧ e ∈ s.path_list := by
  unfold entryFromHash at hre
  split at hre
  · simp at hre
  · next i hidx =>
    split at hre
    · simp at hre
    · next e' hget =>
      simp only [Option.some.injEq] at hre
      subst hre
      obtain ⟨e'', hget'', hhash''⟩ := wf.resolve _ (lookupA_mem hidx)
      rw [hget] at hget''
      injection hget'' with he
      subst he
      exact ⟨i, hidx, hget, hhash'', List.get?_mem hget⟩

/-- A row found at a position resolves back to that position under a
well-formed index. -/
theorem row_self_index {s : SearchLookup} {C : HashScheme} (wf : WF s C)
    {i : Nat} {e : PathListEntry} (hget : s.path_list.get? i = some e) :
    indexFromHash s e.path.hash = some i := by
  obtain ⟨hlt, _⟩ := List.get?_eq_some.mp hget
  obtain ⟨e', hget', hidx'⟩ := wf.selfIndex i (List.mem_range.mpr hlt)
  rw [hget] at hget'
  injection hget' with he
  subst he
  exact hidx'

/-! ## Name occurrence along a sibling chain -/

/-- The target name hash occurs in the sibling chain starting at position
c: either the row at c bears it, or it occurs further along the chain. -/
inductive Occurs (s : SearchLookup) : Nat → Nat → Prop where
  | here : ∀ c ci child, s.path_list_indices.get? c = some ci →
      s.path_list.get? ci = some child →
      Occurs s c child.file_name.hash
  | there : ∀ c ci child t, s.path_list_indices.get? c = some ci →
      s.path_list.get? ci = some child →
      Occurs s child.path.index t →
      Occurs s c t

/-- Under a well-formed index, a chain scan for a name that occurs in the
chain can only complete by finding a row. -/
theorem scan_finds {s : SearchLookup} {C : HashScheme} (wf : WF s C)
    {h : Nat} : ∀ {c t : Nat}, Occurs s c t → ChainReach s h c →
      ∀ {f : Nat} {res : Except GenError (Option Nat)},
        scanChain s f c t = some res → ∃ j, res = .ok (some j) := by
  intro c t hocc
  induction hocc with
  | here c ci child hidx hget =>
    intro hreach f res hscan
    have hcne : c ≠ INVALID := index_pos_ne_invalid wf hidx
    obtain ⟨ci', child', hidx', hci'ne, hget', hpar'⟩ := wf_slot wf hreach hcne
    rw [hidx] at hidx'
    injection hidx' with he
    subst he
    rcases f with _ | f
    · unfold scanChain at hscan
      simp [hcne] at hscan
    · unfold scanChain at hscan
      rw [if_neg hcne, hidx] at hscan
      simp only [Option.some_bind] at hscan
      rw [if_neg hci'ne, hget] at hscan
      simp only [Option.some_bind, if_pos rfl] at hscan
      injection hscan with he2
      exact ⟨ci, he2.symm⟩
  | there c ci child t hidx hget hocc ih =>
    intro hreach f res hscan
    have hcne : c ≠ INVALID := index_pos_ne_invalid wf hidx
    obtain ⟨ci', child', hidx', hci'ne, hget', hpar'⟩ := wf_slot wf hreach hcne
    rw [hidx] at hidx'
    injection hidx' with he
    subst he
    rcases f with _ | f
    · unfold scanChain at hscan
      simp [hcne] at hscan
    · unfold scanChain at hscan
      rw [if_neg hcne, hidx] at hscan
      simp only [Option.some_bind] at hscan
      rw [if_neg hci'ne, hget] at hscan
      simp only [Option.some_bind] at hscan
      by_cases hmatch : child.file_name.hash = t
      · rw [if_pos hmatch] at hscan
        injection hscan with he2
        exact ⟨ci, he2.symm⟩
      · rw [if_neg hmatch] at hscan
        exact ih (ChainReach.step c ci child hreach hidx hget) hscan

/-! ## Characterizing a completed depth-one walk under well-formedness -/

/-- What a completed sibling-chain walk of the children of the folder with
hash X guarantees per emitted entry, under a well-formed index: a file
entry is a non-directory row whose name occurs in the chain from position
c; a folder entry is a directory row whose full-path hash is X joined with
its own name hash and which resolves back to its own row. -/
def EntrySpecC2 (s : SearchLookup) (C : HashScheme) (X c : Nat) :
    SearchEntry → Prop
  | .file ci => ∃ child, s.path_list.get? ci = some child ∧
      child.is_directory = false ∧ Occurs s c child.file_name.hash
  | .folder ci _ => ∃ child, s.path_list.get? ci = some child ∧
      child.is_directory = true ∧
      child.path.hash = C.joinPath X child.file_name.hash ∧
      indexFromHash s child.path.hash = some ci

theorem walkChain_c2 {s : SearchLookup} {C : HashScheme} (wf : WF s C)
    {X : Nat}
    (rw : Nat → Option Nat → Option (Except GenError (List SearchEntry)))
    (nd : Option Nat) (hrw : ∀ h', rw h' nd = some (.ok [])) :
    ∀ (f c : Nat) (res : Except GenError (List SearchEntry)),
      ChainReach s X c → walkChain s rw f c nd = some res →
      ∃ es, res = .ok es ∧ ∀ ent ∈ es, EntrySpecC2 s C X c ent := by
  intro f
  induction f with
  | zero =>
    intro c res hreach h
    unfold walkChain at h
    by_cases hc : c = INVALID
    · rw [if_pos hc] at h
      injection h with he
      exact ⟨[], he.symm, by intro ent hent; simp at hent⟩
    · rw [if_neg hc] at h
      simp at h
  | succ f ih =>
    intro c res hreach h
    unfold walkChain at h
    by_cases hc : c = INVALID
    · rw [if_pos hc] at h
      injection h with he
      exact ⟨[], he.symm, by intro ent hent; simp at hent⟩
    · rw [if_neg hc] at h
      obtain ⟨ci, child, hidx, hcine, hget, hpar⟩ := wf_slot wf hreach hc
      rw [hidx] at h
      simp only [Option.some_bind] at h
      rw [if_neg hcine, hget] at h
      simp only [Option.some_bind] at h
      have hstep : ChainReach s X child.path.index :=
        ChainReach.step c ci child hreach hidx hget
      by_cases hdir : child.is_directory = true
      · rw [if_pos hdir] at h
        rw [hrw child.path.hash] at h
        simp only [obind] at h
        rcases obind_inv h with ⟨rest, hwc, heq⟩ | ⟨e, hwc, herr⟩
        · obtain ⟨es', hok, hspec⟩ := ih child.path.index (.ok rest) hstep hwc
          injection hok with he2
          subst he2
          injection heq with he3
          refine ⟨.folder ci [] :: rest, he3.symm, ?_⟩
          intro ent hent
          rcases List.mem_cons.mp hent with hent | hent
          · subst hent
            refine ⟨child, hget, hdir, ?_, row_self_index wf hget⟩
            rw [wf.joins child (List.get?_mem hget), hpar]
          · have hsp := hspec ent hent
            cases ent with
            | file j =>
              obtain ⟨ch, hg, hd, ho⟩ := hsp
              exact ⟨ch, hg, hd, Occurs.there c ci child _ hidx hget ho⟩
            | folder j sub => exact hsp
        · obtain ⟨es', hok, _⟩ := ih child.path.index (.error e) hstep hwc
          exact absurd hok (by simp)
      · rw [if_neg hdir] at h
        have hdir' : child.is_directory = false := by
          simpa using hdir
        rcases obind_inv h with ⟨rest, hwc, heq⟩ | ⟨e, hwc, herr⟩
        · obtain ⟨es', hok, hspec⟩ := ih child.path.index (.ok rest) hstep hwc
          injection hok with he2
          subst he2
          injection heq with he3
          refine ⟨.file ci :: rest, he3.symm, ?_⟩
          intro ent hent
          rcases List.mem_cons.mp hent with hent | hent
          · subst hent
            exact ⟨child, hget, hdir', Occurs.here c ci child hidx hget⟩
          · have hsp := hspec ent hent
            cases ent with
            | file j =>
              obtain ⟨ch, hg, hd, ho⟩ := hsp
              exact ⟨ch, hg, hd, Occurs.there c ci child _ hidx hget ho⟩
            | folder j sub => exact hsp
        · obtain ⟨es', hok, _⟩ := ih child.path.index (.error e) hstep hwc
          exact absurd hok (by simp)

theorem dir_folder_entry {s : SearchLookup} {C : HashScheme} (wf : WF s C)
    {X : Nat} {e : PathListEntry} (hre : entryFromHash s X = some (some e))
    (hdir : e.is_directory = true) : ∃ fe, folderFromHash s X = some fe := by
  obtain ⟨i, hidx, hget, hhash, hmem⟩ := entry_resolution wf hre
  have hsome := wf.folders e hmem hdir
  rw [hhash] at hsome
  exact Option.isSome_iff_exists.mp hsome

theorem resolveWalk_ok {s : SearchLookup} {C : HashScheme}
    {X : Nat} {e : PathListEntry} {fe : FolderPathEntry}
    (hre : entryFromHash s X = some (some e)) (hdir : e.is_directory = true)
    (hhash : e.path.hash = X) (hfe : folderFromHash s X = some fe) :
    resolveWalkFolder s C X = some (.ok fe) := by
  unfold resolveWalkFolder
  by_cases hroot : X = C.hashStr "/"
  · rw [if_pos hroot, hfe]
  · rw [if_neg hroot, hre]
    simp only
    rw [if_pos hdir, hhash, hfe]

theorem walk_one_c2 {s : SearchLookup} {C : HashScheme} (wf : WF s C)
    {X : Nat} {e : PathListEntry} {fe : FolderPathEntry}
    (hre : entryFromHash s X = some (some e)) (hdir : e.is_directory = true)
    (hhash : e.path.hash = X) (hfe : folderFromHash s X = some fe) :
    ∀ {f : Nat} {res : Except GenError (List SearchEntry)},
      walk s C f X (some 1) = some res →
      ∃ es, res = .ok es ∧
        ∀ ent ∈ es, EntrySpecC2 s C X fe.first_child_index ent := by
  intro f res hw
  unfold walk at hw
  rw [if_neg (by simp)] at hw
  rcases f with _ | f
  · simp at hw
  · simp only at hw
    rw [resolveWalk_ok hre hdir hhash hfe] at hw
    simp only [obind] at hw
    have hmap : (some 1 : Option Nat).map (· - 1) = some 0 := rfl
    rw [hmap] at hw
    exact walkChain_c2 wf _ (some 0) (fun h' => walk_depth_zero s C f h') f
      fe.first_child_index res (ChainReach.head fe hfe) hw

theorem compareEntries_self {s : SearchLookup} {C : HashScheme} (wf : WF s C)
    {f : Nat}
    (hIH : ∀ X parent r,
      (∃ e, entryFromHash s X = some (some e) ∧ e.is_directory = true) →
      compareImpl s C f X X parent = some r → r = .ok [])
    {X iX : Nat} {eX : PathListEntry} {fe : FolderPathEntry}
    (hXget : s.path_list.get? iX = some eX)
    (hXdir : eX.is_directory = true)
    (hXhash : eX.path.hash = X)
    (hfe : folderFromHash s X = some fe)
    (parent : Folder) :
    ∀ (entries : List SearchEntry) (acc : MList) (r : Except GenError MList),
      (∀ ent ∈ entries, EntrySpecC2 s C X fe.first_child_index ent) →
      compareEntries s C (fun a b p => compareImpl s C f a b p) f (some iX) X
        parent entries acc = some r →
      r = .ok acc := by
  intro entries
  induction entries with
  | nil =>
    intro acc r _ h
    simp only [compareEntries] at h
    injection h with he
    exact he.symm
  | cons ent rest ih =>
    intro acc r hspec h
    cases ent with
    | file i =>
      obtain ⟨child, hget, hchdir, hocc⟩ := hspec _ (List.mem_cons_self _ _)
      simp only [compareEntries] at h
      rw [hget] at h
      simp only [Option.some_bind] at h
      rcases obind_inv h with ⟨found, hgdc, hcont⟩ | ⟨e, hgdc, herr⟩
      · have hscan : scanChain s f fe.first_child_index child.file_name.hash =
            some (.ok found) := by
          unfold getDirectChild resolveChildFolder at hgdc
          rw [hXget] at hgdc
          simp only [Option.some_bind] at hgdc
          rw [if_pos hXdir, hXhash, hfe] at hgdc
          simpa [obind] using hgdc
        obtain ⟨j, hj⟩ := scan_finds wf hocc (ChainReach.head fe hfe) hscan
        injection hj with hj2
        subst hj2
        simp only at hcont
        exact ih acc r (fun e' he' => hspec e' (List.mem_cons_of_mem _ he')) hcont
      · have hscan : scanChain s f fe.first_child_index child.file_name.hash =
            some (.error e) := by
          unfold getDirectChild resolveChildFolder at hgdc
          rw [hXget] at hgdc
          simp only [Option.some_bind] at hgdc
          rw [if_pos hXdir, hXhash, hfe] at hgdc
          simpa [obind] using hgdc
        obtain ⟨j, hj⟩ := scan_finds wf hocc (ChainReach.head fe hfe) hscan
        exact absurd hj (by simp)
    | folder pi sub =>
      obtain ⟨child, hget, hchdir, hjoin, hresolve⟩ :=
        hspec _ (List.mem_cons_self _ _)
      simp only [compareEntries] at h
      rw [hget] at h
      simp only [Option.some_bind] at h
      rcases obind_inv h with ⟨sub', hcmp, hcont⟩ | ⟨e, hcmp, herr⟩
      · rw [← hjoin] at hcmp
        have hef : entryFromHash s child.path.hash = some (some child) := by
          unfold entryFromHash
          rw [hresolve]
          simp only
          rw [hget]
        have hok := hIH child.path.hash _ (.ok sub') ⟨child, hef, hchdir⟩ hcmp
        injection hok with hok2
        subst hok2
        have hext : extendKV acc ([] : MList) = acc := rfl
        rw [hext] at hcont
        exact ih acc r (fun e' he' => hspec e' (List.mem_cons_of_mem _ he')) hcont
      · rw [← hjoin] at hcmp
        have hef : entryFromHash s child.path.hash = some (some child) := by
          unfold entryFromHash
          rw [hresolve]
          simp only
          rw [hget]
        have hok := hIH child.path.hash _ (.error e) ⟨child, hef, hchdir⟩ hcmp
        exact absurd hok (by simp)

/-- The compare_folders_impl core of the self-diff property: on a
well-formed index, diffing a resolving directory against itself can only
complete with an empty ok mapping, whatever the destination-folder
context. -/
theorem compare_self {s : SearchLookup} {C : HashScheme} (wf : WF s C) :
    ∀ (f X : Nat) (parent : Folder) (r : Except GenError MList),
      (∃ e, entryFromHash s X = some (some e) ∧ e.is_directory = true) →
      compareImpl s C f X X parent = some r → r = .ok [] := by
  intro f
  induction f with
  | zero =>
    intro X parent r _ h
    simp [compareImpl] at h
  | succ f ih =>
    intro X parent r hres h
    obtain ⟨e, hre, hdir⟩ := hres
    obtain ⟨i, hidx, hget, hhash, hmem⟩ := entry_resolution wf hre
    obtain ⟨fe, hfe⟩ := dir_folder_entry wf hre hdir
    simp only [compareImpl] at h
    rw [hre] at h
    simp only at h
    rcases obind_inv h with ⟨entries, hw, hcont⟩ | ⟨e', hw, herr⟩
    · obtain ⟨es, hok, hspec⟩ := walk_one_c2 wf hre hdir hhash hfe hw
      injection hok with he2
      subst he2
      rw [hidx] at hcont
      exact compareEntries_self wf ih hget hdir hhash hfe parent entries [] r hspec hcont
    · obtain ⟨es, hok, _⟩ := walk_one_c2 wf hre hdir hhash hfe hw
      exact absurd hok (by simp)

/-! ## Shape of walk output without well-formedness assumptions -/

/-- What the walk guarantees about each emitted entry on any index at all:
file entries point at non-directory rows, folder entries at directory
rows. -/
def EntryTag (s : SearchLookup) : SearchEntry → Prop
  | .file ci => ∃ e, s.path_list.get? ci = some e ∧ e.is_directory = false
  | .folder ci _ => ∃ e, s.path_list.get? ci = some e ∧ e.is_directory = true

theorem walkChain_tags {s : SearchLookup}
    {rw : Nat → Option Nat → Option (Except GenError (List SearchEntry))} :
    ∀ {f c : Nat} {d : Option Nat} {es : List SearchEntry},
      walkChain s rw f c d = some (.ok es) → ∀ ent ∈ es, EntryTag s ent := by
  intro f
  induction f with
  | zero =>
    intro c d es h
    unfold walkChain at h
    by_cases hc : c = INVALID
    · rw [if_pos hc] at h
      injection h with he
      injection he with he2
      subst he2
      intro ent hent
      simp at hent
    · rw [if_neg hc] at h
      simp at h
  | succ f ih =>
    intro c d es h
    unfold walkChain at h
    by_cases hc : c = INVALID
    · rw [if_pos hc] at h
      injection h with he
      injection he with he2
      subst he2
      intro ent hent
      simp at hent
    · rw [if_neg hc] at h
      obtain ⟨ci, hidx, h⟩ := bind_some_inv h
      by_cases hci : ci = INVALID
      · rw [if_pos hci] at h
        simp at h
      · rw [if_neg hci] at h
        obtain ⟨child, hget, h⟩ := bind_some_inv h
        by_cases hdir : child.is_directory = true
        · rw [if_pos hdir] at h
          obtain ⟨sub, hsub, h⟩ := obind_ok_inv h
          obtain ⟨rest, hrest, h⟩ := obind_ok_inv h
          injection h with he
          injection he with he2
          subst he2
          intro ent hent
          rcases List.mem_cons.mp hent with hent | hent
          · subst hent
            exact ⟨child, hget, hdir⟩
          · exact ih hrest ent hent
        · rw [if_neg hdir] at h
          obtain ⟨rest, hrest, h⟩ := obind_ok_inv h
          injection h with he
          injection he with he2
          subst he2
          intro ent hent
          rcases List.mem_cons.mp hent with hent | hent
          · subst hent
            exact ⟨child, hget, by simpa using hdir⟩
          · exact ih hrest ent hent

theorem walk_tags {s : SearchLookup} {C : HashScheme} {f h : Nat}
    {d : Option Nat} {es : List SearchEntry}
    (hw : walk s C f h d = some (.ok es)) : ∀ ent ∈ es, EntryTag s ent := by
  unfold walk at hw
  by_cases hd : d = some 0
  · rw [if_pos hd] at hw
    injection hw with he
    injection he with he2
    subst he2
    intro ent hent
    simp at hent
  · rw [if_neg hd] at hw
    rcases f with _ | f
    · simp at hw
    · simp only at hw
      obtain ⟨fe, hfe, hw⟩ := obind_ok_inv hw
      exact walkChain_tags hw

/-! ## Provenance of output keys: every record comes from a file row -/

/-- Every pair of the output mapping is keyed by the full-path hash of a
non-directory row of the index, and carries that row's name hash. -/
def FileKeySpec (s : SearchLookup) (q : Nat × File) : Prop :=
  ∃ ci child, s.path_list.get? ci = some child ∧
    child.is_directory = false ∧ q.1 = child.path.hash ∧
    q.2.file_name = child.file_name.hash

theorem allpairs_insertKV {α : Type} {P : Nat × α → Prop}
    {m : List (Nat × α)} {k : Nat} {v : α} (hm : ∀ q ∈ m, P q)
    (hkv : P (k, v)) : ∀ q ∈ insertKV m k v, P q := by
  intro q hq
  rcases mem_insertKV hq with hq | hq
  · rw [hq]; exact hkv
  · exact hm q hq

theorem allpairs_extendKV {α : Type} {P : Nat × α → Prop}
    {m l : List (Nat × α)} (hm : ∀ q ∈ m, P q) (hl : ∀ q ∈ l, P q) :
    ∀ q ∈ extendKV m l, P q := by
  intro q hq
  rcases mem_extendKV hq with hq | hq
  · exact hm q hq
  · exact hl q hq

theorem compareEntries_filekeys {s : SearchLookup} {C : HashScheme}
    {rec : Nat → Nat → Folder → Option (Except GenError MList)}
    {gdcFuel : Nat} {dstIndex : Option Nat} {dst : Nat} {parent : Folder}
    (hrec : ∀ a b p m', rec a b p = some (.ok m') → ∀ q ∈ m', FileKeySpec s q) :
    ∀ (entries : List SearchEntry) (acc m : MList),
      (∀ ent ∈ entries, EntryTag s ent) → (∀ q ∈ acc, FileKeySpec s q) →
      compareEntries s C rec gdcFuel dstIndex dst parent entries acc =
        some (.ok m) →
      ∀ q ∈ m, FileKeySpec s q := by
  intro entries
  induction entries with
  | nil =>
    intro acc m _ hacc h
    simp only [compareEntries] at h
    injection h with he
    injection he with he2
    subst he2
    exact hacc
  | cons ent rest ih =>
    intro acc m htags hacc h
    have htail : ∀ e ∈ rest, EntryTag s e :=
      fun e he => htags e (List.mem_cons_of_mem _ he)
    cases ent with
    | file i =>
      obtain ⟨e, hget, hdirF⟩ := htags _ (List.mem_cons_self _ _)
      simp only [compareEntries] at h
      obtain ⟨pe, hget', h⟩ := bind_some_inv h
      have hdirF' : pe.is_directory = false := by
        rw [hget] at hget'
        injection hget' with hpe
        rw [← hpe]
        exact hdirF
      have hkv : FileKeySpec s (pe.path.hash,
          File.mk (C.joinPath parent.full_path pe.file_name.hash)
            pe.file_name.hash parent pe.ext.hash) := ⟨i, pe, hget', hdirF', rfl, rfl⟩
      rcases dstIndex with _ | di
      · simp only at h
        exact ih _ m htail (allpairs_insertKV hacc hkv) h
      · simp only at h
        obtain ⟨found, hgdc, h⟩ := obind_ok_inv h
        rcases found with _ | j
        · simp only at h
          exact ih _ m htail (allpairs_insertKV hacc hkv) h
        · simp only at h
          exact ih acc m htail hacc h
    | folder pi sub =>
      simp only [compareEntries] at h
      obtain ⟨pe, hget', h⟩ := bind_some_inv h
      obtain ⟨subm, hsub, h⟩ := obind_ok_inv h
      exact ih _ m htail (allpairs_extendKV hacc (hrec _ _ _ _ hsub)) h

theorem comparePathEntries_filekeys {s : SearchLookup} {C : HashScheme}
    {fs : FS} {recP : Nat → List String → Option (Except GenError MList)}
    {cmpFuel : Nat} {rel dst : List String} {dstE : List (Nat × List String)}
    (hrecP : ∀ a b m', recP a b = some (.ok m') → ∀ q ∈ m', FileKeySpec s q)
    (hcmp : ∀ a b p m', compareImpl s C cmpFuel a b p = some (.ok m') →
      ∀ q ∈ m', FileKeySpec s q) :
    ∀ (entries : List SearchEntry) (acc m : MList),
      (∀ ent ∈ entries, EntryTag s ent) → (∀ q ∈ acc, FileKeySpec s q) →
      comparePathEntries s C fs recP cmpFuel rel dst dstE entries acc =
        some (.ok m) →
      ∀ q ∈ m, FileKeySpec s q := by
  intro entries
  induction entries with
  | nil =>
    intro acc m _ hacc h
    simp only [comparePathEntries] at h
    injection h with he
    injection he with he2
    subst he2
    exact hacc
  | cons ent rest ih =>
    intro acc m htags hacc h
    have htail : ∀ e ∈ rest, EntryTag s e :=
      fun e he => htags e (List.mem_cons_of_mem _ he)
    cases ent with
    | file i =>
      obtain ⟨e, hget, hdirF⟩ := htags _ (List.mem_cons_self _ _)
      simp only [comparePathEntries] at h
      obtain ⟨pe, hget', h⟩ := bind_some_inv h
      have hdirF' : pe.is_directory = false := by
        rw [hget] at hget'
        injection hget' with hpe
        rw [← hpe]
        exact hdirF
      have hkv : FileKeySpec s (pe.path.hash,
          File.mk (C.joinPath (C.hashStr (renderPath dst)) pe.file_name.hash)
            pe.file_name.hash (folderFromPath C rel) pe.ext.hash) :=
        ⟨i, pe, hget', hdirF', rfl, rfl⟩
      by_cases hpresent : (lookupA dstE pe.file_name.hash).isSome = true
      · rw [if_pos hpresent] at h
        exact ih acc m htail hacc h
      · rw [if_neg hpresent] at h
        exact ih _ m htail (allpairs_insertKV hacc hkv) h
    | folder pi sub =>
      simp only [comparePathEntries] at h
      obtain ⟨pe, hget', h⟩ := bind_some_inv h
      rcases hlook : lookupA dstE pe.file_name.hash with _ | childPath
      · rw [hlook] at h
        simp only at h
        obtain ⟨subm, hsub, h⟩ := obind_ok_inv h
        exact ih _ m htail (allpairs_extendKV hacc (hcmp _ _ _ _ hsub)) h
      · rw [hlook] at h
        simp only at h
        by_cases hfile : fs.isFile childPath = true
        · rw [if_pos hfile] at h
          simp at h
        · rw [if_neg hfile] at h
          obtain ⟨subm, hsub, h⟩ := obind_ok_inv h
          exact ih _ m htail (allpairs_extendKV hacc (hrecP _ _ _ hsub)) h

/-- Both diff modes only ever emit mapping entries keyed by the full path
hash of a file row of the source index. -/
theorem diff_filekeys {s : SearchLookup} {C : HashScheme} {fs : FS} :
    ∀ f : Nat,
      (∀ src dst parent m, compareImpl s C f src dst parent = some (.ok m) →
        ∀ q ∈ m, FileKeySpec s q) ∧
      (∀ src dst root m, comparePath s C fs f src dst root = some (.ok m) →
        ∀ q ∈ m, FileKeySpec s q) := by
  intro f
  induction f with
  | zero =>
    constructor
    · intro src dst parent m h
      simp [compareImpl] at h
    · intro src dst root m h
      simp [comparePath] at h
  | succ f ih =>
    constructor
    · intro src dst parent m h
      simp only [compareImpl] at h
      rcases hre : entryFromHash s src with _ | oe
      · rw [hre] at h; simp at h
      · rw [hre] at h
        rcases oe with _ | p
        · simp at h
        · simp only at h
          obtain ⟨entries, hw, h⟩ := obind_ok_inv h
          exact compareEntries_filekeys
            (fun a b q m' hm' => ih.1 a b q m' hm') entries [] m
            (walk_tags hw) (by intro q hq; simp at hq) h
    · intro src dst root m h
      simp only [comparePath] at h
      rcases hre : entryFromHash s src with _ | oe
      · rw [hre] at h; simp at h
      · rw [hre] at h
        rcases oe with _ | p
        · simp at h
        · simp only at h
          rcases hrel : dropRootPath root dst with _ | rel
          · rw [hrel] at h; simp at h
          · rw [hrel] at h
            simp only at h
            by_cases hex : fs.pathExists dst = false
            · rw [if_pos hex] at h
              rcases hln : lastName dst with _ | fname
              · rw [hln] at h; simp at h
              · rw [hln] at h
                rcases hpp : parentPath dst with _ | par
                · rw [hpp] at h; simp at h
                · rw [hpp] at h
                  simp only at h
                  rcases hrp : dropRootPath root par with _ | relPar
                  · rw [hrp] at h; simp at h
                  · rw [hrp] at h
                    simp only at h
                    exact ih.1 _ _ _ m h
            · rw [if_neg hex] at h
              obtain ⟨entries, hw, h⟩ := obind_ok_inv h
              rcases hrd : fs.readDir dst with _ | names
              · rw [hrd] at h; simp at h
              · rw [hrd] at h
                simp only at h
                exact comparePathEntries_filekeys
                  (fun a b m' hm' => ih.2 a b root m' hm')
                  (fun a b q m' hm' => ih.1 a b q m' hm') entries [] m
                  (walk_tags hw) (by intro q hq; simp at hq) h

/-! ## The destination-folder ancestor chain -/

/-- The destination folders the diff can build below a base folder: the
base itself, or a folder named n whose full path is its parent's full path
joined with n and whose parent chain continues down to the base. -/
inductive ChainExt (C : HashScheme) (base : Folder) : Folder → Prop where
  | refl : ChainExt C base base
  | step : ∀ (p : Folder) (n : Nat), ChainExt C base p →
      ChainExt C base (Folder.mk (C.joinPath p.full_path n) (some n) (some p))

theorem chainExt_trans {C : HashScheme} {a b c : Folder}
    (hab : ChainExt C a b) (hbc : ChainExt C b c) : ChainExt C a c := by
  induction hbc with
  | refl => exact hab
  | step p n _ ih => exact ChainExt.step p n ih

/-- The value predicate of the chain property: the record's parent extends
the base chain and its full path is the parent's full path joined with its
name. -/
def ChainSpec (C : HashScheme) (base : Folder) (q : Nat × File) : Prop :=
  ChainExt C base q.2.parent ∧
    q.2.full_path = C.joinPath q.2.parent.full_path q.2.file_name

theorem compareEntries_chain {s : SearchLookup} {C : HashScheme}
    {rec : Nat → Nat → Folder → Option (Except GenError MList)}
    {gdcFuel : Nat} {dstIndex : Option Nat} {base : Folder}
    {dst : Nat} {parent : Folder}
    (hparent : ChainExt C base parent)
    (hrec : ∀ a n m', rec a (C.joinPath dst n)
        (Folder.mk (C.joinPath dst n) (some n) (some parent)) = some (.ok m') →
      ∀ q ∈ m', ChainSpec C base q) :
    ∀ (entries : List SearchEntry) (acc m : MList),
      (∀ q ∈ acc, ChainSpec C base q) →
      compareEntries s C rec gdcFuel dstIndex dst parent entries acc =
        some (.ok m) →
      ∀ q ∈ m, ChainSpec C base q := by
  intro entries
  induction entries with
  | nil =>
    intro acc m hacc h
    simp only [compareEntries] at h
    injection h with he
    injection he with he2
    subst he2
    exact hacc
  | cons ent rest ih =>
    intro acc m hacc h
    cases ent with
    | file i =>
      simp only [compareEntries] at h
      obtain ⟨pe, hget', h⟩ := bind_some_inv h
      have hkv : ChainSpec C base (pe.path.hash,
          File.mk (C.joinPath parent.full_path pe.file_name.hash)
            pe.file_name.hash parent pe.ext.hash) := ⟨hparent, rfl⟩
      rcases dstIndex with _ | di
      · simp only at h
        exact ih _ m (allpairs_insertKV hacc hkv) h
      · simp only at h
        obtain ⟨found, hgdc, h⟩ := obind_ok_inv h
        rcases found with _ | j
        · simp only at h
          exact ih _ m (allpairs_insertKV hacc hkv) h
        · simp only at h
          exact ih acc m hacc h
    | folder pi sub =>
      simp only [compareEntries] at h
      obtain ⟨pe, hget', h⟩ := bind_some_inv h
      obtain ⟨subm, hsub, h⟩ := obind_ok_inv h
      exact ih _ m (allpairs_extendKV hacc (hrec _ _ _ hsub)) h

/-- In index-vs-index mode, whenever the destination-folder context records
the destination hash as its full path (as every call from compare_folders
does), every emitted record's parent chain extends the context, each chain
link is named and carries the joined full path, and each record's full
path is its parent's full path joined with its name. -/
theorem compareImpl_chain {s : SearchLookup} {C : HashScheme} :
    ∀ (f : Nat) (src dst : Nat) (parent : Folder) (m : MList),
      parent.full_path = dst →
      compareImpl s C f src dst parent = some (.ok m) →
      ∀ q ∈ m, ChainSpec C parent q := by
  intro f
  induction f with
  | zero =>
    intro src dst parent m _ h
    simp [compareImpl] at h
  | succ f ih =>
    intro src dst parent m hdst h
    simp only [compareImpl] at h
    rcases hre : entryFromHash s src with _ | oe
    · rw [hre] at h; simp at h
    · rw [hre] at h
      rcases oe with _ | p
      · simp at h
      · simp only at h
        obtain ⟨entries, hw, h⟩ := obind_ok_inv h
        refine compareEntries_chain (ChainExt.refl) ?_ entries [] m
          (by intro q hq; simp at hq) h
        intro a n m' hm' q hq
        have hstep : ChainExt C parent
            (Folder.mk (C.joinPath dst n) (some n) (some parent)) := by
          rw [← hdst]
          exact ChainExt.step parent n ChainExt.refl
        have hsub := ih a (C.joinPath dst n)
          (Folder.mk (C.joinPath dst n) (some n) (some parent)) m'
          (by simp [Folder.full_path]) hm' q hq
        exact ⟨chainExt_trans hstep hsub.1, hsub.2⟩

/-! ## Folder children always recurse and their results are merged -/

theorem compareEntries_foldermerge {s : SearchLookup} {C : HashScheme}
    {rec : Nat → Nat → Folder → Option (Except GenError MList)}
    {gdcFuel : Nat} {dstIndex : Option Nat} {dst : Nat} {parent : Folder} :
    ∀ (entries : List SearchEntry) (acc m : MList),
      compareEntries s C rec gdcFuel dstIndex dst parent entries acc =
        some (.ok m) →
      (∀ k, keyMem k acc = true → keyMem k m = true) ∧
      (∀ pi sub, SearchEntry.folder pi sub ∈ entries →
        ∀ pe, s.path_list.get? pi = some pe →
        ∃ md, rec pe.path.hash (C.joinPath dst pe.file_name.hash)
            (Folder.mk (C.joinPath dst pe.file_name.hash)
              (some pe.file_name.hash) (some parent)) = some (.ok md) ∧
          ∀ k, keyMem k md = true → keyMem k m = true) := by
  intro entries
  induction entries with
  | nil =>
    intro acc m h
    simp only [compareEntries] at h
    injection h with he
    injection he with he2
    subst he2
    exact ⟨fun k hk => hk, by intro pi sub hmem; simp at hmem⟩
  | cons ent rest ih =>
    intro acc m h
    cases ent with
    | file i =>
      simp only [compareEntries] at h
      obtain ⟨pe, hget', h⟩ := bind_some_inv h
      have hfin :
          (∃ acc', compareEntries s C rec gdcFuel dstIndex dst parent rest
              acc' = some (.ok m) ∧
            ∀ k, keyMem k acc = true → keyMem k acc' = true) := by
        rcases dstIndex with _ | di
        · simp only at h
          exact ⟨_, h, fun k hk => keyMem_insertKV_mono _ _ hk⟩
        · simp only at h
          obtain ⟨found, hgdc, h⟩ := obind_ok_inv h
          rcases found with _ | j
          · simp only at h
            exact ⟨_, h, fun k hk => keyMem_insertKV_mono _ _ hk⟩
          · simp only at h
            exact ⟨acc, h, fun k hk => hk⟩
      obtain ⟨acc', hrest, hmono⟩ := hfin
      obtain ⟨ihmono, ihfold⟩ := ih acc' m hrest
      refine ⟨fun k hk => ihmono k (hmono k hk), ?_⟩
      intro pi sub hmem pe' hget''
      rcases List.mem_cons.mp hmem with hmem | hmem
      · exact absurd hmem (by simp)
      · exact ihfold pi sub hmem pe' hget''
    | folder pi0 sub0 =>
      simp only [compareEntries] at h
      obtain ⟨pe, hget', h⟩ := bind_some_inv h
      obtain ⟨subm, hsub, h⟩ := obind_ok_inv h
      obtain ⟨ihmono, ihfold⟩ := ih _ m h
      have hmono : ∀ k, keyMem k acc = true → keyMem k m = true :=
        fun k hk => ihmono k (keyMem_extendKV_left hk)
      refine ⟨hmono, ?_⟩
      intro pi sub hmem pe' hget''
      rcases List.mem_cons.mp hmem with hmem | hmem
      · have hpi : pi = pi0 := by
          injection hmem with h1 h2
        subst hpi
        rw [hget'] at hget''
        injection hget'' with hpe
        subst hpe
        exact ⟨subm, hsub, fun k hk => ihmono k (keyMem_extendKV_right hk)⟩
      · exact ihfold pi sub hmem pe' hget''

/-! ## Which errors each operation can produce -/

theorem resolveWalk_inv {s : SearchLookup} {C : HashScheme} {x : Nat}
    {res : Except GenError FolderPathEntry}
    (h : resolveWalkFolder s C x = some res) :
    (res = .error .lookupFailed ∨ res = .error .invalidFolder) ∨
    (∃ fe h0, res = .ok fe ∧ folderFromHash s h0 = some fe) := by
  unfold resolveWalkFolder at h
  by_cases hroot : x = C.hashStr "/"
  · rw [if_pos hroot] at h
    rcases hfe : folderFromHash s x with _ | fe
    · rw [hfe] at h
      injection h with he
      exact Or.inl (Or.inl he.symm)
    · rw [hfe] at h
      injection h with he
      exact Or.inr ⟨fe, x, he.symm, hfe⟩
  · rw [if_neg hroot] at h
    rcases hre : entryFromHash s x with _ | oe
    · rw [hre] at h; simp at h
    · rw [hre] at h
      rcases oe with _ | p
      · simp only at h
        injection h with he
        exact Or.inl (Or.inl he.symm)
      · simp only at h
        by_cases hdir : p.is_directory = true
        · rw [if_pos hdir] at h
          rcases hfe : folderFromHash s p.path.hash with _ | fe
          · rw [hfe] at h
            injection h with he
            exact Or.inl (Or.inl he.symm)
          · rw [hfe] at h
            injection h with he
            exact Or.inr ⟨fe, p.path.hash, he.symm, hfe⟩
        · rw [if_neg hdir] at h
          injection h with he
          exact Or.inl (Or.inr he.symm)

/-- Under a well-formed index, a completed depth-one walk is either a
resolution error or an ok list in which every folder entry is a directory
row that resolves back to its own position. -/
theorem walk_one_inv {s : SearchLookup} {C : HashScheme} (wf : WF s C) :
    ∀ {f src : Nat} {res : Except GenError (List SearchEntry)},
      walk s C f src (some 1) = some res →
      (res = .error .lookupFailed ∨ res = .error .invalidFolder) ∨
      (∃ es, res = .ok es ∧ ∀ ent ∈ es, ∀ pi sub,
        ent = SearchEntry.folder pi sub →
        ∃ child, s.path_list.get? pi = some child ∧
          child.is_directory = true ∧
          indexFromHash s child.path.hash = some pi) := by
  intro f src res hw
  unfold walk at hw
  rw [if_neg (by simp)] at hw
  rcases f with _ | f
  · simp at hw
  · simp only at hw
    rcases obind_inv hw with ⟨fe, hres, hw'⟩ | ⟨e, hres, herr⟩
    · rcases resolveWalk_inv hres with herr' | ⟨fe', h0, hok, hfe'⟩
      · rcases herr' with herr' | herr' <;> simp at herr'
      · injection hok with hfeeq
        subst hfeeq
        have hmap : (some 1 : Option Nat).map (· - 1) = some 0 := rfl
        rw [hmap] at hw'
        obtain ⟨es, hok2, hspec⟩ := walkChain_c2 wf _ (some 0)
          (fun h' => walk_depth_zero s C f h') f fe.first_child_index res
          (ChainReach.head fe hfe') hw'
        refine Or.inr ⟨es, hok2, ?_⟩
        intro ent hent pi sub hfold
        subst hfold
        obtain ⟨child, hget, hdir, hjoin, hresolve⟩ := hspec _ hent
        exact ⟨child, hget, hdir, hresolve⟩
    · rcases resolveWalk_inv hres with herr' | ⟨fe', h0, hok, hfe'⟩
      · subst herr
        rcases herr' with herr' | herr'
        · injection herr' with he2
          exact Or.inl (Or.inl (by rw [he2]))
        · injection herr' with he2
          exact Or.inl (Or.inr (by rw [he2]))
      · exact absurd hok (by simp)

theorem scanChain_err {s : SearchLookup} :
    ∀ {f c t : Nat} {e : GenError},
      scanChain s f c t = some (.error e) → e = .invalidPathIndex := by
  intro f
  induction f with
  | zero =>
    intro c t e h
    unfold scanChain at h
    by_cases hc : c = INVALID
    · rw [if_pos hc] at h
      simp at h
    · rw [if_neg hc] at h
      simp at h
  | succ f ih =>
    intro c t e h
    unfold scanChain at h
    by_cases hc : c = INVALID
    · rw [if_pos hc] at h
      simp at h
    · rw [if_neg hc] at h
      obtain ⟨ci, hidx, h⟩ := bind_some_inv h
      by_cases hci : ci = INVALID
      · rw [if_pos hci] at h
        injection h with he
        injection he with he2
        exact he2.symm
      · rw [if_neg hci] at h
        obtain ⟨path, hget, h⟩ := bind_some_inv h
        by_cases hmatch : path.file_name.hash = t
        · rw [if_pos hmatch] at h
          simp at h
        · rw [if_neg hmatch] at h
          exact ih h

theorem gdc_err {s : SearchLookup} {f p c : Nat} {e : GenError}
    (h : getDirectChild s f p c = some (.error e)) :
    e = .invalidPathIndex ∨ e = .lookupFailed ∨ e = .invalidFolder := by
  unfold getDirectChild at h
  rcases obind_inv h with ⟨fe, hres, hscan⟩ | ⟨e', hres, herr⟩
  · exact Or.inl (scanChain_err hscan)
  · injection herr with he2
    subst he2
    unfold resolveChildFolder at hres
    obtain ⟨folder, hget, hres⟩ := bind_some_inv hres
    by_cases hdir : folder.is_directory = true
    · rw [if_pos hdir] at hres
      rcases hfe : folderFromHash s folder.path.hash with _ | fe
      · rw [hfe] at hres
        injection hres with he3
        injection he3 with he4
        exact Or.inr (Or.inl he4.symm)
      · rw [hfe] at hres
        simp at hres
    · rw [if_neg hdir] at hres
      injection hres with he3
      injection he3 with he4
      exact Or.inr (Or.inr he4.symm)

/-! ## MissingSourceFolder arises only from source checks -/

theorem compareEntries_no_msf {s : SearchLookup} {C : HashScheme}
    {rec : Nat → Nat → Folder → Option (Except GenError MList)}
    {gdcFuel : Nat} {dstIndex : Option Nat} {dst : Nat} {parent : Folder}
    (hrec : ∀ a b p r, (∃ j, indexFromHash s a = some j) →
      rec a b p = some r → r ≠ .error .missingSourceFolder) :
    ∀ (entries : List SearchEntry) (acc : MList) (r : Except GenError MList),
      (∀ ent ∈ entries, ∀ pi sub, ent = SearchEntry.folder pi sub →
        ∃ child, s.path_list.get? pi = some child ∧
          child.is_directory = true ∧
          indexFromHash s child.path.hash = some pi) →
      compareEntries s C rec gdcFuel dstIndex dst parent entries acc = some r →
      r ≠ .error .missingSourceFolder := by
  intro entries
  induction entries with
  | nil =>
    intro acc r _ h
    simp only [compareEntries] at h
    injection h with he
    rw [← he]
    simp
  | cons ent rest ih =>
    intro acc r hents h
    have htail := fun e he => hents e (List.mem_cons_of_mem _ he)
    cases ent with
    | file i =>
      simp only [compareEntries] at h
      obtain ⟨pe, hget', h⟩ := bind_some_inv h
      rcases dstIndex with _ | di
      · simp only at h
        exact ih _ r htail h
      · simp only at h
        rcases obind_inv h with ⟨found, hgdc, h⟩ | ⟨e, hgdc, herr⟩
        · rcases found with _ | j
          · simp only at h
            exact ih _ r htail h
          · simp only at h
            exact ih acc r htail h
        · subst herr
          rcases gdc_err hgdc with he | he | he <;> simp [he]
    | folder pi0 sub0 =>
      obtain ⟨child, hgetc, hdirc, hresc⟩ :=
        hents _ (List.mem_cons_self _ _) pi0 sub0 rfl
      simp only [compareEntries] at h
      obtain ⟨pe, hget', h⟩ := bind_some_inv h
      rw [hgetc] at hget'
      injection hget' with hpe
      subst hpe
      rcases obind_inv h with ⟨subm, hsub, h⟩ | ⟨e, hsub, herr⟩
      · exact ih _ r htail h
      · subst herr
        exact hrec _ _ _ _ ⟨pi0, hresc⟩ hsub

theorem comparePathEntries_no_msf {s : SearchLookup} {C : HashScheme}
    {fs : FS} {recP : Nat → List String → Option (Except GenError MList)}
    {cmpFuel : Nat} {rel dst : List String} {dstE : List (Nat × List String)}
    (hrecP : ∀ a b r, (∃ j, indexFromHash s a = some j) →
      recP a b = some r → r ≠ .error .missingSourceFolder)
    (hcmp : ∀ a b p r, (∃ j, indexFromHash s a = some j) →
      compareImpl s C cmpFuel a b p = some r →
      r ≠ .error .missingSourceFolder) :
    ∀ (entries : List SearchEntry) (acc : MList) (r : Except GenError MList),
      (∀ ent ∈ entries, ∀ pi sub, ent = SearchEntry.folder pi sub →
        ∃ child, s.path_list.get? pi = some child ∧
          child.is_directory = true ∧
          indexFromHash s child.path.hash = some pi) →
      comparePathEntries s C fs recP cmpFuel rel dst dstE entries acc = some r →
      r ≠ .error .missingSourceFolder := by
  intro entries
  induction entries with
  | nil =>
    intro acc r _ h
    simp only [comparePathEntries] at h
    injection h with he
    rw [← he]
    simp
  | cons ent rest ih =>
    intro acc r hents h
    have htail := fun e he => hents e (List.mem_cons_of_mem _ he)
    cases ent with
    | file i =>
      simp only [comparePathEntries] at h
      obtain ⟨pe, hget', h⟩ := bind_some_inv h
      by_cases hpresent : (lookupA dstE pe.file_name.hash).isSome = true
      · rw [if_pos hpresent] at h
        exact ih acc r htail h
      · rw [if_neg hpresent] at h
        exact ih _ r htail h
    | folder pi0 sub0 =>
      obtain ⟨child, hgetc, hdirc, hresc⟩ :=
        hents _ (List.mem_cons_self _ _) pi0 sub0 rfl
      simp only [comparePathEntries] at h
      obtain ⟨pe, hget', h⟩ := bind_some_inv h
      rw [hgetc] at hget'
      injection hget' with hpe
      subst hpe
      rcases hlook : lookupA dstE child.file_name.hash with _ | childPath
      · rw [hlook] at h
        simp only at h
        rcases obind_inv h with ⟨subm, hsub, h⟩ | ⟨e, hsub, herr⟩
        · exact ih _ r htail h
        · subst herr
          exact hcmp _ _ _ _ ⟨pi0, hresc⟩ hsub
      · rw [hlook] at h
        simp only at h
        by_cases hfile : fs.isFile childPath = true
        · rw [if_pos hfile] at h
          injection h with he
          rw [← he]
          simp
        · rw [if_neg hfile] at h
          rcases obind_inv h with ⟨subm, hsub, h⟩ | ⟨e, hsub, herr⟩
          · exact ih _ r htail h
          · subst herr
            exact hrecP _ _ _ ⟨pi0, hresc⟩ hsub

/-- In either mode, when the source resolves in the index, a completed
diff never reports MissingSourceFolder on a well-formed index: the error
arises only from an unresolved (possibly recursive) source. -/
theorem diff_no_msf {s : SearchLookup} {C : HashScheme} {fs : FS}
    (wf : WF s C) :
    ∀ f : Nat,
      (∀ src dst parent r, (∃ j, indexFromHash s src = some j) →
        compareImpl s C f src dst parent = some r →
        r ≠ .error .missingSourceFolder) ∧
      (∀ src dst root r, (∃ j, indexFromHash s src = some j) →
        comparePath s C fs f src dst root = some r →
        r ≠ .error .missingSourceFolder) := by
  intro f
  induction f with
  | zero =>
    constructor
    · intro src dst parent r _ h
      simp [compareImpl] at h
    · intro src dst root r _ h
      simp [comparePath] at h
  | succ f ih =>
    constructor
    · intro src dst parent r hsrc h
      obtain ⟨j, hsrc⟩ := hsrc
      simp only [compareImpl] at h
      unfold entryFromHash at h
      rw [hsrc] at h
      simp only at h
      rcases hget : s.path_list.get? j with _ | e
      · rw [hget] at h
        simp at h
      · rw [hget] at h
        simp only at h
        rcases obind_inv h with ⟨entries, hw, h⟩ | ⟨e', hw, herr⟩
        · rcases walk_one_inv wf hw with herr' | ⟨es, hok, hspec⟩
          · rcases herr' with herr' | herr' <;> simp at herr'
          · injection hok with he2
            subst he2
            exact compareEntries_no_msf
              (fun a b p r' ha hr => (ih.1) a b p r' ha hr) entries [] r hspec h
        · subst herr
          rcases walk_one_inv wf hw with herr' | ⟨es, hok, hspec⟩
          · rcases herr' with herr' | herr' <;>
              (injection herr' with he2; rw [he2]; simp)
          · exact absurd hok (by simp)
    · intro src dst root r hsrc h
      obtain ⟨j, hsrc⟩ := hsrc
      simp only [comparePath] at h
      unfold entryFromHash at h
      rw [hsrc] at h
      simp only at h
      rcases hget : s.path_list.get? j with _ | e
      · rw [hget] at h
        simp at h
      · rw [hget] at h
        simp only at h
        rcases hrel : dropRootPath root dst with _ | rel
        · rw [hrel] at h
          injection h with he
          rw [← he]
          simp
        · rw [hrel] at h
          simp only at h
          by_cases hex : fs.pathExists dst = false
          · rw [if_pos hex] at h
            rcases hln : lastName dst with _ | fname
            · rw [hln] at h; simp at h
            · rw [hln] at h
              rcases hpp : parentPath dst with _ | par
              · rw [hpp] at h; simp at h
              · rw [hpp] at h
                simp only at h
                rcases hrp : dropRootPath root par with _ | relPar
                · rw [hrp] at h
                  injection h with he
                  rw [← he]
                  simp
                · rw [hrp] at h
                  simp only at h
                  exact (ih.1) _ _ _ r ⟨j, hsrc⟩ h
          · rw [if_neg hex] at h
            rcases obind_inv h with ⟨entries, hw, h⟩ | ⟨e', hw, herr⟩
            · rcases hrd : fs.readDir dst with _ | names
              · rw [hrd] at h
                injection h with he
                rw [← he]
                simp
              · rw [hrd] at h
                simp only at h
                rcases walk_one_inv wf hw with herr' | ⟨es, hok, hspec⟩
                · rcases herr' with herr' | herr' <;> simp at herr'
                · injection hok with he2
                  subst he2
                  exact comparePathEntries_no_msf
                    (fun a b r' ha hr => (ih.2) a b root r' ha hr)
                    (fun a b p r' ha hr => (ih.1) a b p r' ha hr) entries [] r
                    hspec h
            · subst herr
              rcases walk_one_inv wf hw with herr' | ⟨es, hok, hspec⟩
              · rcases herr' with herr' | herr' <;>
                  (injection herr' with he2; rw [he2]; simp)
              · exact absurd hok (by simp)

/-! ## Label map monotonicity -/

theorem lookupA_filter_ne {α : Type} {k h : Nat} (hne : h ≠ k) :
    ∀ m : List (Nat × α),
      lookupA (m.filter (fun p => !(p.1 == k))) h = lookupA m h := by
  intro m
  induction m with
  | nil => rfl
  | cons p rest ih =>
    by_cases hpk : p.1 = k
    · rw [List.filter_cons_of_neg (by simp [hpk])]
      rw [ih]
      have hstep : lookupA (p :: rest) h = lookupA rest h := by
        simp only [lookupA]
        rw [if_neg (by rw [hpk]; exact fun he => hne he.symm)]
      rw [hstep]
    · rw [List.filter_cons_of_pos (by simp [hpk])]
      unfold lookupA
      by_cases hph : p.1 = h
      · rw [if_pos hph, if_pos hph]
      · rw [if_neg hph, if_neg hph]
        exact ih

theorem lookupA_insertKV_isSome {α : Type} {m : List (Nat × α)} {h : Nat}
    (k : Nat) (v : α) (hm : (lookupA m h).isSome = true) :
    (lookupA (insertKV m k v) h).isSome = true := by
  unfold insertKV
  unfold lookupA
  by_cases hk : k = h
  · rw [if_pos (by simpa using hk)]
    rfl
  · rw [if_neg (by simpa using hk)]
    rw [lookupA_filter_ne (fun he => hk he.symm)]
    exact hm

theorem labelOf_foldl_addLabel {C : HashScheme} (ls : List String) :
    ∀ (m : LabelMap) (h : Nat), (labelOf m h).isSome = true →
      (labelOf (ls.foldl (fun acc c => addLabel C acc c) m) h).isSome = true := by
  induction ls with
  | nil => intro m h hm; exact hm
  | cons c rest ih =>
    intro m h hm
    simp only [List.foldl_cons]
    exact ih _ h (lookupA_insertKV_isSome _ _ hm)

theorem fillFold_mono {s : SearchLookup} {C : HashScheme} {fuel : Nat} :
    ∀ (entries : List SearchEntry) (m m' : LabelMap),
      fillFold s C fuel entries m = .done m' →
      ∀ h, (labelOf m h).isSome = true → (labelOf m' h).isSome = true := by
  intro entries
  induction entries with
  | nil =>
    intro m m' hdone h hm
    simp only [fillFold] at hdone
    injection hdone with he
    rw [← he]
    exact hm
  | cons ent rest ih =>
    intro m m' hdone h hm
    cases ent with
    | folder pi sub => simp [fillFold] at hdone
    | file i =>
      simp only [fillFold] at hdone
      rcases hget : s.path_list.get? i with _ | path
      · rw [hget] at hdone; simp at hdone
      · rw [hget] at hdone
        simp only at hdone
        rcases hlab : labelOf m path.path.hash with _ | label
        · rw [hlab] at hdone
          simp only at hdone
          rcases hbuild : buildNewPath s fuel i m with _ | ob
          · rw [hbuild] at hdone; simp at hdone
          · rw [hbuild] at hdone
            rcases ob with _ | newLabel
            · simp only at hdone
              exact ih m m' hdone h hm
            · simp only at hdone
              exact ih _ m' hdone h (lookupA_insertKV_isSome _ _ hm)
        · rw [hlab] at hdone
          simp only at hdone
          exact ih _ m' hdone h (labelOf_foldl_addLabel _ m h hm)

/-- Label reconstruction never loses a label: every hash labelled before a
completed run is still labelled afterwards. -/
theorem fill_mono {s : SearchLookup} {C : HashScheme} {fuel : Nat}
    {m m' : LabelMap} (hdone : fill s C fuel m = .done m') :
    ∀ h, (labelOf m h).isSome = true → (labelOf m' h).isSome = true := by
  unfold fill at hdone
  rcases hw : walk s C fuel (C.hashStr "/") none with _ | res
  · rw [hw] at hdone; simp at hdone
  · rw [hw] at hdone
    rcases res with e | entries
    · simp at hdone
    · simp only at hdone
      exact fillFold_mono _ m m' hdone

/-! ## Flatten produces only file leaves -/

/-- Whether an entry is a file leaf. -/
def isFileEntry : SearchEntry → Bool
  | .file _ => true
  | .folder _ _ => false

theorem flatten_only_files : ∀ v : List SearchEntry,
    (flattenList v).all isFileEntry = true := by
  intro v
  induction v using flattenList.induct with
  | case1 => simp [flattenList]
  | case2 i rest ih =>
    simp only [flattenList, List.all_cons, ih]
    rfl
  | case3 pi children rest ihc ihr =>
    simp only [flattenList, List.all_append, ihc, ihr]
    rfl

/-- Whether a fill outcome is the unreachable-branch panic. -/
def isUnreachableRes : FillRes → Bool
  | .hitUnreachable => true
  | _ => false

theorem fillFold_no_unreachable {s : SearchLookup} {C : HashScheme}
    {fuel : Nat} :
    ∀ (entries : List SearchEntry) (m : LabelMap),
      entries.all isFileEntry = true →
      isUnreachableRes (fillFold s C fuel entries m) = false := by
  intro entries
  induction entries with
  | nil => intro m _; rfl
  | cons ent rest ih =>
    intro m hall
    simp only [List.all_cons, Bool.and_eq_true] at hall
    cases ent with
    | folder pi sub => simp [isFileEntry] at hall
    | file i =>
      simp only [fillFold]
      rcases hget : s.path_list.get? i with _ | path
      · rfl
      · simp only
        rcases hlab : labelOf m path.path.hash with _ | label
        · simp only
          rcases hbuild : buildNewPath s fuel i m with _ | ob
          · rfl
          · rcases ob with _ | newLabel
            · exact ih m hall.2
            · exact ih _ hall.2
        · exact ih _ hall.2

theorem fill_no_unreachable (s : SearchLookup) (C : HashScheme) (fuel : Nat)
    (m : LabelMap) : isUnreachableRes (fill s C fuel m) = false := by
  unfold fill
  rcases hw : walk s C fuel (C.hashStr "/") none with _ | res
  · rfl
  · rcases res with e | entries
    · rfl
    · simp only
      exact fillFold_no_unreachable _ m (flatten_only_files entries)

/-! ## path_to_hash versus the chained-component reading -/

theorem pathToHashAux_chain {C : HashScheme}
    (hj : ∀ a b, C.joinPath a b ≠ 0) :
    ∀ (rest : List String) (acc : Nat), acc ≠ 0 →
      pathToHashAux C acc rest = chainFold C acc rest := by
  intro rest
  induction rest with
  | nil => intro acc _; rfl
  | cons comp rest ih =>
    intro acc hacc
    simp only [pathToHashAux, chainFold]
    rw [if_neg hacc]
    by_cases hspecial : hasHexMark comp ∧ comp.data.any (fun c => c == '.')
    · rw [if_pos hspecial]
      unfold effectiveComp
      rw [if_pos hspecial]
      rcases hfl : fromLabel C (takeBeforeDot comp) with _ | x
      · rfl
      · simp only [Option.map_some]
        exact ih _ (hj acc x)
    · rw [if_neg hspecial]
      unfold effectiveComp
      rw [if_neg hspecial]
      rcases hfl : fromLabel C comp with _ | x
      · rfl
      · simp only [Option.map_some]
        exact ih _ (hj acc x)

/-! ## Concrete instances used by the witnesses and counterexamples -/

/-- A tiny concrete hash scheme: only the root marker has a nonzero string
hash; joining is an injective pairing. -/
def cTC : HashScheme where
  hashStr := fun s => if s = "/" then 7 else 0
  joinPath := fun a b => 1000 * a + b + 1

/-- Directory a (full path hash 7010 = join 7 9) with two children. -/
def cTA : PathListEntry := ⟨⟨7010, INVALID⟩, ⟨7, 0⟩, ⟨9, 0⟩, ⟨0, 0⟩, true⟩

/-- File child of a (full path hash 7010011 = join 7010 10); its next
sibling sits at chain slot 1. -/
def cTF : PathListEntry := ⟨⟨7010011, 1⟩, ⟨7010, 0⟩, ⟨10, 0⟩, ⟨77, 0⟩, false⟩

/-- Empty directory child of a (full path hash 7010012 = join 7010 11). -/
def cTB : PathListEntry := ⟨⟨7010012, INVALID⟩, ⟨7010, 0⟩, ⟨11, 0⟩, ⟨0, 0⟩, true⟩

/-- A small well-formed index: directory a containing a file and an empty
subdirectory. -/
def cT : SearchLookup where
  path_list := [cTA, cTF, cTB]
  path_list_indices := [1, 2]
  hash_to_index := [(7010, 0), (7010011, 1), (7010012, 2)]
  folder_by_hash := [(7010, ⟨0⟩), (7010012, ⟨INVALID⟩)]

theorem cT_wf : WF cT cTC := by
  refine ⟨?_, ?_, ?_, ?_, ?_, ?_, ?_⟩
  · intro p hp
    fin_cases hp
    · exact ⟨cTA, rfl, rfl⟩
    · exact ⟨cTF, rfl, rfl⟩
    · exact ⟨cTB, rfl, rfl⟩
  · intro i hi
    fin_cases hi
    · exact ⟨cTA, rfl, rfl⟩
    · exact ⟨cTF, rfl, rfl⟩
    · exact ⟨cTB, rfl, rfl⟩
  · intro e he hdir
    fin_cases he
    · rfl
    · exact absurd hdir (by decide)
    · rfl
  · intro e he
    fin_cases he <;> rfl
  · intro p hp
    fin_cases hp
    · exact Or.inr ⟨1, cTF, rfl, by decide, rfl, rfl⟩
    · exact Or.inl rfl
  · intro e he
    fin_cases he
    · exact Or.inl rfl
    · exact Or.inr ⟨2, cTB, rfl, by decide, rfl, rfl⟩
    · exact Or.inl rfl
  · decide

/-- The ok payload of a diff result, for stating concrete runs. -/
def diffOkList (r : Option (Except GenError MList)) : MList :=
  match r with
  | some (.ok m) => m
  | _ => []

/-- An ill-formed index: directory (hash 1) whose directory child (hash 2)
is absent from the hash-to-index table, so the child's own source check
fails during recursion. -/
def cUA : PathListEntry := ⟨⟨1, INVALID⟩, ⟨7, 0⟩, ⟨9, 0⟩, ⟨0, 0⟩, true⟩

def cUB : PathListEntry := ⟨⟨2, INVALID⟩, ⟨1, 0⟩, ⟨11, 0⟩, ⟨0, 0⟩, true⟩

def cU : SearchLookup :=
  ⟨[cUA, cUB], [1], [(1, 0)], [(1, ⟨0⟩), (2, ⟨INVALID⟩)]⟩

/-- Hash scheme for the label-reconstruction counterexample, with fixed
codes for the labels involved. -/
def c6C : HashScheme where
  hashStr := fun s =>
    if s = "/" then 7
    else if s = "a" then 100
    else if s = "b" then 101
    else if s = "n" then 102
    else if s = "a/b" then 20
    else if s = "a/b/n" then 50
    else 0
  joinPath := fun a b => 1000 * a + b + 1

/-- A single file row whose parent hash 20 carries the multi-component
label a/b and whose name hash 102 carries the label n. -/
def c6F : PathListEntry := ⟨⟨50, INVALID⟩, ⟨20, 0⟩, ⟨102, 0⟩, ⟨0, 0⟩, false⟩

def c6S : SearchLookup := ⟨[c6F], [0], [(50, 0)], [(7, ⟨0⟩)]⟩

/-- Starting label map: the parent path and the file name are labelled,
the file's own full path is not. -/
def c6M : LabelMap := [(20, "a/b"), (102, "n")]

/-- The label map after the first reconstruction run: only the file's full
label was added. -/
def c6M1 : LabelMap := [(50, "a/b/n"), (20, "a/b"), (102, "n")]

/-- The completed-run extraction for stating the fill counterexample. -/
def doneMap (r : FillRes) : LabelMap :=
  match r with
  | .done m => m
  | _ => []

theorem c6_run1 : fill c6S c6C 10 c6M = .done c6M1 := by
  have hw : walk c6S c6C 10 (c6C.hashStr "/") none =
      some (.ok [.file 0]) := rfl
  have hf : flattenList [SearchEntry.file 0] = [SearchEntry.file 0] := by
    simp [flattenList]
  unfold fill
  rw [hw]
  simp only
  rw [hf]
  rfl

theorem c6_run2 : fill c6S c6C 10 c6M1 =
    .done [(102, "n"), (101, "b"), (100, "a"), (50, "a/b/n"), (20, "a/b")] := by
  have hw : walk c6S c6C 10 (c6C.hashStr "/") none =
      some (.ok [.file 0]) := rfl
  have hf : flattenList [SearchEntry.file 0] = [SearchEntry.file 0] := by
    simp [flattenList]
  unfold fill
  rw [hw]
  simp only
  rw [hf]
  rfl

/-- Filesystem stub for the type-mismatch scenario: every path exists, the
path x is a plain file, directories list nothing. -/
def cFS5 : FS := ⟨fun _ => true, fun p => p == ["x"], fun _ => some []⟩

/-- Destination listing mapping the subdirectory's name hash to the real
path x. -/
def c5dstE : List (Nat × List String) := [(11, ["x"])]

/-- An index whose single directory has a first-child slot that resolves
to INVALID in the path-index table: a broken sibling chain. -/
def cK : PathListEntry := ⟨⟨1, INVALID⟩, ⟨7, 0⟩, ⟨9, 0⟩, ⟨0, 0⟩, true⟩

def cBroken : SearchLookup := ⟨[cK], [INVALID], [(1, 0)], [(1, ⟨0⟩)]⟩

/-- Hash scheme for the path-to-hash claims: the label a hashes to 100 and
joining never produces zero. -/
def c9C : HashScheme where
  hashStr := fun s => if s = "a" then 100 else 3
  joinPath := fun a b => 1000 * a + b + 1

/-! ## Claims -/

/-- C1, counterexample: the returned mapping is not keyed by the record's
own full_path field. Diffing directory a (hash 7010) against the absent
destination 999 stores the missing file under its source full-path hash
7010011, while the stored record's full_path field is 999011, the
destination path joined with the file name; the two differ. -/
theorem c1_counterexample :
    compare_folders cT cTC 8 7010 999 =
      some (.ok [(7010011, File.mk 999011 10 (Folder.mk 999 none none) 77)]) ∧
    (7010011 : Nat) ≠
      (File.mk 999011 10 (Folder.mk 999 none none) 77).full_path :=
  ⟨rfl, by decide⟩

/-- C1, amended: in both diff modes, every entry of a completed mapping is
keyed by the source file's own full-path hash (the full path of a
non-directory row of the index) and carries that row's name hash; the key
equals the record's destination-side full_path field only when source and
destination paths coincide. -/
theorem c1_amended (s : SearchLookup) (C : HashScheme) (fs : FS) (f : Nat) :
    (∀ src dst parent m,
      compareImpl s C f src dst parent = some (.ok m) →
      ∀ q ∈ m, FileKeySpec s q) ∧
    (∀ src dst root m,
      comparePath s C fs f src dst root = some (.ok m) →
      ∀ q ∈ m, FileKeySpec s q) :=
  diff_filekeys f

theorem c1_amended_witness :
    compareImpl cT cTC 8 7010 999 (Folder.mk 999 none none) =
      some (.ok [(7010011, File.mk 999011 10 (Folder.mk 999 none none) 77)]) ∧
    FileKeySpec cT (7010011, File.mk 999011 10 (Folder.mk 999 none none) 77) :=
  ⟨rfl, (c1_amended cT cTC cFS5 8).1 7010 999 (Folder.mk 999 none none) _ rfl
    _ (List.mem_cons_self _ _)⟩

/-- C2: on a well-formed index, diffing a folder hash that resolves to a
directory against itself yields, whenever the computation completes, an
ok result with an empty mapping. -/
theorem c2_self_diff_empty (s : SearchLookup) (C : HashScheme) (fuel X : Nat)
    (e : PathListEntry) (r : Except GenError MList) (wf : WF s C)
    (hres : entryFromHash s X = some (some e)) (hdir : e.is_directory = true)
    (hrun : compare_folders s C fuel X X = some r) : r = .ok [] :=
  compare_self wf fuel X (Folder.mk X none none) r ⟨e, hres, hdir⟩ hrun

theorem c2_witness :
    WF cT cTC ∧ entryFromHash cT 7010 = some (some cTA) ∧
    cTA.is_directory = true ∧
    compare_folders cT cTC 8 7010 7010 = some (.ok []) ∧
    ((Except.ok ([] : MList) : Except GenError MList) = Except.ok []) :=
  ⟨cT_wf, rfl, rfl, rfl,
    c2_self_diff_empty cT cTC 8 7010 cTA (.ok []) cT_wf rfl rfl rfl⟩

/-- C3: a directory child of the source is never emitted itself - every
entry of the completed mapping stems from a file row; the recursion
extends the destination-folder chain only with folders that carry a name
and whose full path is the parent folder's full path joined with that
name; and for every directory child of the depth-one source walk, the
recursive diff on that child, against the destination joined with the
child's name and with the extended folder chain, completed ok and all its
keys were merged into the final mapping - with no condition on the
destination directory existing. -/
theorem c3_directory_children (s : SearchLookup) (C : HashScheme)
    (f src dst : Nat) (parent : Folder) (m : MList)
    (entries : List SearchEntry)
    (hwalk : walk s C f src (some 1) = some (.ok entries))
    (hrun : compareImpl s C (f + 1) src dst parent = some (.ok m))
    (hfp : parent.full_path = dst) :
    (∀ q ∈ m, FileKeySpec s q) ∧
    (∀ q ∈ m, ChainSpec C parent q) ∧
    (∀ pi sub, SearchEntry.folder pi sub ∈ entries →
      ∀ pe, s.path_list.get? pi = some pe →
      ∃ md, compareImpl s C f pe.path.hash (C.joinPath dst pe.file_name.hash)
          (Folder.mk (C.joinPath dst pe.file_name.hash)
            (some pe.file_name.hash) (some parent)) = some (.ok md) ∧
        ∀ k, keyMem k md = true → keyMem k m = true) := by
  refine ⟨fun q hq =>
      (@diff_filekeys s C ⟨fun _ => true, fun _ => false, fun _ => none⟩
        (f + 1)).1 _ _ _ _ hrun q hq,
    compareImpl_chain (f + 1) src dst parent m hfp hrun, ?_⟩
  simp only [compareImpl] at hrun
  rcases hre : entryFromHash s src with _ | oe
  · rw [hre] at hrun; simp at hrun
  · rw [hre] at hrun
    rcases oe with _ | p
    · simp at hrun
    · simp only at hrun
      obtain ⟨entries', hw', hrun'⟩ := obind_ok_inv hrun
      rw [hwalk] at hw'
      injection hw' with hw2
      injection hw2 with hw3
      subst hw3
      exact (compareEntries_foldermerge entries [] m hrun').2

theorem c3_witness :
    walk cT cTC 7 7010 (some 1) =
      some (.ok [.file 1, .folder 2 []]) ∧
    compareImpl cT cTC 8 7010 999 (Folder.mk 999 none none) =
      some (.ok [(7010011, File.mk 999011 10 (Folder.mk 999 none none) 77)]) ∧
    ChainSpec cTC (Folder.mk 999 none none)
      (7010011, File.mk 999011 10 (Folder.mk 999 none none) 77) :=
  ⟨rfl, rfl,
    (c3_directory_children cT cTC 7 7010 999 (Folder.mk 999 none none) _ _
      rfl rfl rfl).2.1 _ (List.mem_cons_self _ _)⟩

/-- C4, counterexample: on an ill-formed index whose directory child hash
is absent from the hash-to-index table, the source hash 1 resolves to an
existing entry, yet the diff returns MissingSourceFolder (raised by the
recursive source check on the child), refuting the claimed equivalence
for arbitrary inputs. -/
theorem c4_counterexample :
    entryFromHash cU 1 = some (some cUA) ∧
    compare_folders cU cTC 4 1 999 = some (.error .missingSourceFolder) :=
  ⟨rfl, rfl⟩

/-- C4, amended: in both modes an unresolved source immediately reports
MissingSourceFolder, whatever the destination; and on a well-formed index
a resolving source never leads to MissingSourceFolder, whether or not the
destination exists anywhere. On ill-formed indices a resolving top-level
source can still produce the error through a recursive source check. -/
theorem c4_amended (s : SearchLookup) (C : HashScheme) (fs : FS)
    (fuel src dst : Nat) (parent : Folder) (dstP root : List String) :
    (indexFromHash s src = none →
      compareImpl s C (fuel + 1) src dst parent =
        some (.error .missingSourceFolder)) ∧
    (indexFromHash s src = none →
      comparePath s C fs (fuel + 1) src dstP root =
        some (.error .missingSourceFolder)) ∧
    (WF s C → ∀ i r, indexFromHash s src = some i →
      compareImpl s C fuel src dst parent = some r →
      r ≠ .error .missingSourceFolder) ∧
    (WF s C → ∀ i r, indexFromHash s src = some i →
      comparePath s C fs fuel src dstP root = some r →
      r ≠ .error .missingSourceFolder) := by
  refine ⟨?_, ?_, ?_, ?_⟩
  · intro hnone
    simp only [compareImpl]
    unfold entryFromHash
    rw [hnone]
  · intro hnone
    simp only [comparePath]
    unfold entryFromHash
    rw [hnone]
  · intro wf i r hsome hrun
    exact (@diff_no_msf s C fs wf fuel).1 src dst parent r ⟨i, hsome⟩ hrun
  · intro wf i r hsome hrun
    exact (diff_no_msf wf fuel).2 src dstP root r ⟨i, hsome⟩ hrun

theorem c4_witness :
    indexFromHash cT 333 = none ∧
    compareImpl cT cTC 5 333 999 (Folder.mk 999 none none) =
      some (.error .missingSourceFolder) ∧
    WF cT cTC ∧ indexFromHash cT 7010 = some 0 ∧
    (Except.ok [(7010011, File.mk 999011 10 (Folder.mk 999 none none) 77)] ≠
      Except.error GenError.missingSourceFolder) :=
  ⟨rfl,
    (c4_amended cT cTC cFS5 4 333 999 (Folder.mk 999 none none) [] []).1 rfl,
    cT_wf, rfl,
    (c4_amended cT cTC cFS5 8 7010 999 (Folder.mk 999 none none) [] []).2.2.1
      cT_wf 0 (.ok [(7010011, File.mk 999011 10 (Folder.mk 999 none none) 77)])
      rfl rfl⟩

/-- C5: in filesystem mode, a source directory child whose name hash
matches a real destination child fails with InvalidFolder when that real
entry is a file, and recurses in filesystem mode on the real child's path
when it is a directory, merging the result. -/
theorem c5_type_mismatch (s : SearchLookup) (C : HashScheme) (fs : FS)
    (f : Nat) (root rel dst : List String) (dstE : List (Nat × List String))
    (pi : Nat) (sub rest : List SearchEntry) (acc : MList)
    (pe : PathListEntry) (p : List String)
    (hget : s.path_list.get? pi = some pe)
    (hlook : lookupA dstE pe.file_name.hash = some p) :
    (fs.isFile p = true →
      comparePathEntries s C fs (fun a b => comparePath s C fs f a b root) f
        rel dst dstE (.folder pi sub :: rest) acc =
        some (.error .invalidFolder)) ∧
    (fs.isFile p = false →
      comparePathEntries s C fs (fun a b => comparePath s C fs f a b root) f
        rel dst dstE (.folder pi sub :: rest) acc =
        obind (comparePath s C fs f pe.path.hash p root) fun subm =>
          comparePathEntries s C fs (fun a b => comparePath s C fs f a b root)
            f rel dst dstE rest (extendKV acc subm)) := by
  constructor
  · intro hfile
    simp only [comparePathEntries]
    rw [hget]
    simp only [Option.some_bind]
    rw [hlook]
    simp only
    rw [if_pos hfile]
  · intro hfile
    simp only [comparePathEntries]
    rw [hget]
    simp only [Option.some_bind]
    rw [hlook]
    simp only
    rw [if_neg (by simp [hfile])]

theorem c5_witness :
    cT.path_list.get? 2 = some cTB ∧
    lookupA c5dstE cTB.file_name.hash = some ["x"] ∧
    cFS5.isFile ["x"] = true ∧
    comparePathEntries cT cTC cFS5
      (fun a b => comparePath cT cTC cFS5 3 a b ["r"]) 3 ["d"] ["r", "d"]
      c5dstE [.folder 2 []] [] = some (.error .invalidFolder) :=
  ⟨rfl, rfl, rfl,
    (c5_type_mismatch cT cTC cFS5 3 ["r"] ["d"] ["r", "d"] c5dstE 2 [] [] []
      cTB ["x"] rfl rfl).1 rfl⟩

/-- C6, counterexample: label reconstruction is not a fixed point. On the
single-file index c6S with starting map c6M, the first run adds only the
full label a/b/n; the second run decomposes that label and newly adds the
component label a (hash 100), which the first run had not added. -/
theorem c6_counterexample :
    fill c6S c6C 10 c6M = .done c6M1 ∧
    labelOf c6M1 100 = none ∧
    fill c6S c6C 10 c6M1 =
      .done [(102, "n"), (101, "b"), (100, "a"), (50, "a/b/n"), (20, "a/b")] ∧
    labelOf [(102, "n"), (101, "b"), (100, "a"), (50, "a/b/n"), (20, "a/b")]
      100 = some "a" :=
  ⟨c6_run1, rfl, c6_run2, rfl⟩

/-- C6, amended: a second reconstruction run can add labels the first one
did not (components of labels the first run constructed, and labels they
enable); what does hold is that reconstruction only grows the label map -
every hash labelled before a completed run, in particular every label the
first run added, is still labelled after the next run. -/
theorem c6_amended (s : SearchLookup) (C : HashScheme) (fuel : Nat)
    (m m' : LabelMap) (hdone : fill s C fuel m = .done m') :
    ∀ h, (labelOf m h).isSome = true → (labelOf m' h).isSome = true :=
  fill_mono hdone

theorem c6_witness :
    fill c6S c6C 10 c6M = .done c6M1 ∧ (labelOf c6M 20).isSome = true ∧
    (labelOf c6M1 20).isSome = true :=
  ⟨c6_run1, rfl, c6_amended c6S c6C 10 c6M c6M1 c6_run1 20 rfl⟩

/-- C7: a tree walk with depth limit zero returns an empty ok result at
once for every start location and every index whatsoever - in particular
the result does not depend on the index, so no lookup is consulted, and no
error is ever reported. -/
theorem c7_depth_zero_empty (s : SearchLookup) (C : HashScheme)
    (fuel h : Nat) : walk s C fuel h (some 0) = some (.ok []) :=
  walk_depth_zero s C fuel h

/-- C8: in both the tree walker and the child resolver, a first-child
position that resolves to INVALID in the path-index table makes the
operation fail with InvalidPathIndex, while an INVALID first-child link
itself is the ordinary end of children: the walk returns an empty list and
the resolver reports the child as not found. -/
theorem c8_invalid_path_index (s : SearchLookup) (C : HashScheme)
    (f h pi t : Nat) (depth : Option Nat) (e efold : PathListEntry)
    (fe fe' : FolderPathEntry)
    (hdepth : depth ≠ some 0) (hroot : h ≠ C.hashStr "/")
    (hre : entryFromHash s h = some (some e)) (hdir : e.is_directory = true)
    (hfe : folderFromHash s e.path.hash = some fe)
    (hpget : s.path_list.get? pi = some efold)
    (hpdir : efold.is_directory = true)
    (hfe' : folderFromHash s efold.path.hash = some fe') :
    (fe.first_child_index ≠ INVALID →
      s.path_list_indices.get? fe.first_child_index = some INVALID →
      walk s C (f + 2) h depth = some (.error .invalidPathIndex)) ∧
    (fe.first_child_index = INVALID →
      walk s C (f + 2) h depth = some (.ok [])) ∧
    (fe'.first_child_index ≠ INVALID →
      s.path_list_indices.get? fe'.first_child_index = some INVALID →
      getDirectChild s (f + 1) pi t = some (.error .invalidPathIndex)) ∧
    (fe'.first_child_index = INVALID →
      getDirectChild s (f + 1) pi t = some (.ok none)) := by
  have hres : resolveWalkFolder s C h = some (.ok fe) := by
    unfold resolveWalkFolder
    rw [if_neg hroot, hre]
    simp only
    rw [if_pos hdir, hfe]
  have hres' : resolveChildFolder s pi = some (.ok fe') := by
    unfold resolveChildFolder
    rw [hpget]
    simp only [Option.some_bind]
    rw [if_pos hpdir, hfe']
  refine ⟨?_, ?_, ?_, ?_⟩
  · intro hne hinv
    unfold walk
    rw [if_neg hdepth]
    simp only
    rw [hres]
    simp only [obind]
    unfold walkChain
    rw [if_neg hne, hinv]
    simp
  · intro hzero
    unfold walk
    rw [if_neg hdepth]
    simp only
    rw [hres]
    simp only [obind]
    unfold walkChain
    rw [if_pos hzero]
  · intro hne hinv
    unfold getDirectChild
    rw [hres']
    simp only [obind]
    unfold scanChain
    rw [if_neg hne, hinv]
    simp
  · intro hzero
    unfold getDirectChild
    rw [hres']
    simp only [obind]
    unfold scanChain
    rw [if_pos hzero]

theorem c8_witness :
    (none : Option Nat) ≠ some 0 ∧ (1 : Nat) ≠ cTC.hashStr "/" ∧
    entryFromHash cBroken 1 = some (some cK) ∧ cK.is_directory = true ∧
    folderFromHash cBroken cK.path.hash = some ⟨0⟩ ∧
    cBroken.path_list.get? 0 = some cK ∧
    walk cBroken cTC 5 1 none = some (.error .invalidPathIndex) ∧
    getDirectChild cBroken 4 0 99 = some (.error .invalidPathIndex) :=
  ⟨by simp, by decide, rfl, rfl, rfl, rfl,
    (c8_invalid_path_index cBroken cTC 3 1 0 99 none cK cK ⟨0⟩ ⟨0⟩ (by simp)
      (by decide) rfl rfl rfl rfl rfl rfl).1 (by decide) rfl,
    (c8_invalid_path_index cBroken cTC 3 1 0 99 none cK cK ⟨0⟩ ⟨0⟩ (by simp)
      (by decide) rfl rfl rfl rfl rfl rfl).2.2.1 (by decide) rfl⟩

/-- C9, counterexample: a first component written as a literal hex hash
with an extension separator does not contribute the portion before the
separator - from_label is applied to it whole and fails (a panic in the
source, modelled as none), while the claimed chained hash is 0xa. -/
theorem c9_counterexample :
    path_to_hash c9C ["0xa.b"] = none ∧
    chainedHashClaim c9C ["0xa.b"] = some 10 :=
  ⟨rfl, rfl⟩

/-- C9, amended: for a path whose first component from_label hashes to a
nonzero value and whose join operation never produces zero (as the real
40-bit hash of a nonempty path does), path_to_hash is the chained hash of
the components in order, where every component after the first that is
written as a literal hex hash and contains an extension separator
contributes only the portion before the separator; the first component is
parsed whole. -/
theorem c9_amended (C : HashScheme) (c : String) (rest : List String)
    (hj : ∀ a b, C.joinPath a b ≠ 0)
    (hhead : ∀ x, fromLabel C c = some x → x ≠ 0) :
    path_to_hash C (c :: rest) = chainedHashAmended C (c :: rest) := by
  unfold path_to_hash
  simp only [pathToHashAux, chainedHashAmended]
  simp only [if_true]
  rcases hfl : fromLabel C c with _ | x
  · rfl
  · simp only
    exact pathToHashAux_chain hj rest x (hhead x hfl)

theorem c9_witness :
    (∀ a b, c9C.joinPath a b ≠ 0) ∧
    path_to_hash c9C ["a", "0xff.n"] =
      chainedHashAmended c9C ["a", "0xff.n"] :=
  ⟨fun a b => Nat.succ_ne_zero _,
    c9_amended c9C "a" ["0xff.n"] (fun a b => Nat.succ_ne_zero _)
      (fun x hx => by
        have h100 : fromLabel c9C "a" = some 100 := rfl
        rw [h100] at hx
        injection hx with h2
        omega)⟩

/-- C10: flattening a walk result yields only file leaves, and therefore
the unreachable branch of fill_label_map_from_search, which would trigger
on a folder entry in the flattened unbounded walk, is never executed for
any index, fuel and label map. -/
theorem c10_flatten_only_files :
    (∀ v : List SearchEntry, (flattenList v).all isFileEntry = true) ∧
    (∀ (s : SearchLookup) (C : HashScheme) (fuel : Nat) (m : LabelMap),
      isUnreachableRes (fill s C fuel m) = false) :=
  ⟨flatten_only_files, fill_no_unreachable⟩
